import Mathlib

/-!
Shallow embedding of the `Proposal` and `Event` classes of `lib/event.js`
(hubot-plan core).  JavaScript specifics that matter here:

* `this.proposals` is a JS array mutated with `push` and `delete arr[i]`;
  `delete` leaves a hole without changing `length`.  We model it as
  `List (Option Proposal)`, `none` being a hole.
* `for (const p of this.proposals)` (array iterator) yields `undefined`
  at holes, so a method call on the iteration variable throws a
  `TypeError`; `Array.prototype.reduce`, `map` and `filter` skip holes
  (`map` keeps the holes in its result).
* JS `Set` keeps insertion order; we model a set as a `List String`
  without duplicates, with `jsSetAdd` / `jsSetDelete` / `jsNewSet`
  mirroring `add`, `delete` and `new Set(iterable)`.
* moment timestamps are modelled as an instant in milliseconds plus the
  timezone name; `isBefore` / `isAfter` compare instants.
* Mutation-with-exceptions is modelled by returning
  `Option JsError × State`: the state component is the object state after
  the call, which in JS persists even when the call threw.

Error objects: `errors.js` is not part of the sources; following the
spec's error taxonomy its builders are modelled as the constructors of
`JsError` (`buildInvalidProposalError` ↦ `invalidProposal`,
`buildFinalizedEventError` ↦ `finalizedEvent`,
`buildUnfinalizedEventError` ↦ `unfinalizedEvent`); `typeErrorUndefined`
is the JS `TypeError` thrown by a member access on `undefined`.
-/

/-- A moment-timezone timestamp: the instant (`valueOf()`, in ms) and the
zone name (`tz()`). -/
structure Ts where
  ms : Nat
  zone : String
deriving DecidableEq

/-- Errors thrown by the event core (see module comment for the mapping
to the builders of `errors.js`). -/
inductive JsError where
  | invalidProposal
  | finalizedEvent
  | unfinalizedEvent
  | typeErrorUndefined
deriving DecidableEq

/-- JS `Set.prototype.add`: append if not already present. -/
def jsSetAdd (s : List String) (x : String) : List String :=
  if x ∈ s then s else s ++ [x]

/-- JS `Set.prototype.delete`: remove the element (on the duplicate-free
lists that model JS sets, `filter` removes exactly that element). -/
def jsSetDelete (s : List String) (x : String) : List String :=
  s.filter (fun y => y ≠ x)

/-- JS `new Set(iterable)`: deduplicate keeping first occurrences. -/
def jsNewSet (l : List String) : List String :=
  l.foldl jsSetAdd []

/-- The `Proposal` class: timestamp, accepted set, leading flag. -/
structure Proposal where
  ts : Ts
  accepted : List String
  leading : Bool
deriving DecidableEq

/-- JS `new Proposal(ts)`. -/
def Proposal.mk0 (ts : Ts) : Proposal :=
  { ts := ts, accepted := [], leading := false }

/-- JS `yesCount()`: size of the accepted set. -/
def Proposal.yesCount (p : Proposal) : Nat := p.accepted.length

/-- JS `isLeading()`. -/
def Proposal.isLeading (p : Proposal) : Bool := p.leading

/-- JS `yes(uid)`. -/
def Proposal.yes (p : Proposal) (uid : String) : Proposal :=
  { p with accepted := jsSetAdd p.accepted uid }

/-- JS `no(uid)`. -/
def Proposal.no (p : Proposal) (uid : String) : Proposal :=
  { p with accepted := jsSetDelete p.accepted uid }

/-- JS `isAttending(uid)`. -/
def Proposal.isAttending (p : Proposal) (uid : String) : Bool :=
  p.accepted.contains uid

/-- The plain form produced by `Proposal#serialize`. -/
structure SerializedProposal where
  ts : Nat
  zone : String
  accepted : List String
deriving DecidableEq

/-- JS `Proposal#serialize`. -/
def Proposal.serialize (p : Proposal) : SerializedProposal :=
  { ts := p.ts.ms, zone := p.ts.zone, accepted := p.accepted }

/-- JS `Proposal.deserialize`: `moment.tz(payload.ts, payload.zone)`
rebuilds the same instant in the same zone; `new Set(payload.accepted)`
rebuilds the accepted set; the constructor leaves `leading = false`. -/
def Proposal.deserialize (sp : SerializedProposal) : Proposal :=
  { ts := { ms := sp.ts, zone := sp.zone }, accepted := jsNewSet sp.accepted,
    leading := false }

/-- The `Event` class.  `earliest`/`latest` cache a reference to a
proposal object; since every proposal object occupies exactly one slot
and its timestamp is immutable, the reference is modelled as the slot
index paired with the proposal's timestamp. -/
structure Event where
  id : String
  name : String
  proposals : List (Option Proposal)
  invitees : List String
  responses : List String
  finalized : Option Nat
  earliest : Option (Nat × Ts)
  latest : Option (Nat × Ts)
deriving DecidableEq

/-- JS `new Event(id, name)`. -/
def Event.mk0 (id name : String) : Event :=
  { id := id, name := name, proposals := [], invitees := [], responses := [],
    finalized := none, earliest := none, latest := none }

/-- JS `this.proposals[index] === undefined` holds both past the end of the
array and at a hole. -/
def Event.slotLive (e : Event) (i : Nat) : Bool :=
  match e.proposals.get? i with
  | some (some _) => true
  | _ => false

/-- JS `proposal(index)`: throw `InvalidProposal` when the slot is absent. -/
def Event.proposal (e : Event) (i : Nat) : Except JsError Proposal :=
  match e.proposals.get? i with
  | some (some p) => Except.ok p
  | _ => Except.error JsError.invalidProposal

/-- JS `isFinalized()`. -/
def Event.isFinalized (e : Event) : Bool := e.finalized.isSome

/-- The `earliest` cache update in `proposeDate`:
`if (!this.earliest || p.date().isBefore(this.earliest.date())) this.earliest = p`.
The new proposal sits at index `idx`. -/
def pushEarliest (c : Option (Nat × Ts)) (idx : Nat) (ts : Ts) : Option (Nat × Ts) :=
  match c with
  | none => some (idx, ts)
  | some (j, t) => if ts.ms < t.ms then some (idx, ts) else some (j, t)

/-- The `latest` cache update in `proposeDate` (with `isAfter`). -/
def pushLatest (c : Option (Nat × Ts)) (idx : Nat) (ts : Ts) : Option (Nat × Ts) :=
  match c with
  | none => some (idx, ts)
  | some (j, t) => if ts.ms > t.ms then some (idx, ts) else some (j, t)

/-- JS `proposeDate(ts)`: throws when finalized, otherwise pushes a new
proposal, updates the `earliest`/`latest` caches by strict comparison
(`isBefore` / `isAfter`, so ties keep the cached reference) and returns
the new index. -/
def Event.proposeDate (e : Event) (ts : Ts) : Except JsError (Event × Nat) :=
  if e.isFinalized then Except.error JsError.finalizedEvent
  else
    let idx := e.proposals.length
    Except.ok ({ e with proposals := e.proposals ++ [some (Proposal.mk0 ts)],
                        earliest := pushEarliest e.earliest idx ts,
                        latest := pushLatest e.latest idx ts }, idx)

/-- One step of the `reduce` callbacks in `unpropose`: `cmp` is the
strict comparison (`isBefore` for the earliest scan, `isAfter` for the
latest scan); the accumulator starts as `null` and an element strictly
better than the accumulator replaces it.  `ind` is the absolute index of
the head of `l`; the entry at index `skip` is passed over, and `reduce`
itself skips holes. -/
def reduceExtAux (cmp : Nat → Nat → Bool) :
    List (Option Proposal) → Nat → Nat → Option (Nat × Ts) → Option (Nat × Ts)
  | [], _, _, acc => acc
  | o :: rest, ind, skip, acc =>
    let acc1 :=
      match o with
      | none => acc
      | some p =>
        if ind = skip then acc
        else
          match acc with
          | none => some (ind, p.ts)
          | some (j, t) => if cmp p.ts.ms t.ms then some (ind, p.ts) else some (j, t)
    reduceExtAux cmp rest (ind + 1) skip acc1

/-- The `reduce` in `unpropose` recomputing `earliest`. -/
def jsReduceMin (l : List (Option Proposal)) (skip : Nat) : Option (Nat × Ts) :=
  reduceExtAux (fun a b => a < b) l 0 skip none

/-- The `reduce` in `unpropose` recomputing `latest`. -/
def jsReduceMax (l : List (Option Proposal)) (skip : Nat) : Option (Nat × Ts) :=
  reduceExtAux (fun a b => a > b) l 0 skip none

/-- Guard `this.earliest === this.proposals[index]` (object identity):
true exactly when the cache holds the object sitting live at slot
`index`. -/
def Event.cacheHits (cache : Option (Nat × Ts)) (e : Event) (i : Nat) : Bool :=
  match cache with
  | some (j, _) => j = i && e.slotLive i
  | none => false

/-- JS `unpropose(index)`: recompute each cache whose object is being
removed (scanning the array before the `delete`), then
`delete this.proposals[index]` (a no-op past the end of the array), then
clear `finalized` if it pointed at `index`.  Never throws. -/
def Event.unpropose (e : Event) (i : Nat) : Event :=
  let earliest1 :=
    if Event.cacheHits e.earliest e i then jsReduceMin e.proposals i else e.earliest
  let latest1 :=
    if Event.cacheHits e.latest e i then jsReduceMax e.proposals i else e.latest
  { e with proposals := e.proposals.set i none,
           earliest := earliest1, latest := latest1,
           finalized := if e.finalized = some i then none else e.finalized }

/-- JS `invite(uid)`. -/
def Event.invite (e : Event) (uid : String) : Event :=
  { e with invitees := jsSetAdd e.invitees uid }

/-- JS `uninvite(uid)`. -/
def Event.uninvite (e : Event) (uid : String) : Event :=
  { e with invitees := jsSetDelete e.invitees uid }

/-- The first loop of `remarkLeader()`:
`let leadingCount = 2; for (...) if (p.yesCount() > leadingCount) ...`. -/
def jsLeadingCount (l : List (Option Proposal)) : Nat :=
  l.foldl
    (fun acc o =>
      match o with
      | some p => if p.yesCount > acc then p.yesCount else acc
      | none => acc) 2

/-- The second loop of `remarkLeader()`: mark every proposal whose
`yesCount()` equals `leadingCount`, clear the rest. -/
def markLeaders (l : List (Option Proposal)) : List (Option Proposal) :=
  l.map (Option.map (fun p => { p with leading := p.yesCount == jsLeadingCount l }))

/-- JS `remarkLeader()`: the first `for...of` loop computes
`leadingCount = max(2, yesCounts)`; the second marks every proposal with
exactly that count and clears the rest.  Both loops iterate the array
with `for...of`, which yields `undefined` at a hole, so with any hole
present `proposal.yesCount()` throws a `TypeError` before a flag is
touched. -/
def Event.remarkLeader (e : Event) : Except JsError Event :=
  if e.proposals.all Option.isSome then
    Except.ok { e with proposals := markLeaders e.proposals }
  else Except.error JsError.typeErrorUndefined

/-- JS `acceptProposal(uid, index)`: adds to `invitees` and `responses`,
then resolves the proposal (whose failure propagates with the roster
updates already applied), records the yes vote in place and recomputes
the leader flags. -/
def Event.acceptProposal (e : Event) (uid : String) (i : Nat) :
    Option JsError × Event :=
  let e1 := { e with invitees := jsSetAdd e.invitees uid,
                     responses := jsSetAdd e.responses uid }
  match e1.proposal i with
  | Except.error err => (some err, e1)
  | Except.ok p =>
    let e2 := { e1 with proposals := e1.proposals.set i (some (p.yes uid)) }
    match e2.remarkLeader with
    | Except.error err => (some err, e2)
    | Except.ok e3 => (none, e3)

/-- JS `rejectProposal(uid, index)`: like `acceptProposal` but only
`responses` is extended and the vote is removed. -/
def Event.rejectProposal (e : Event) (uid : String) (i : Nat) :
    Option JsError × Event :=
  let e1 := { e with responses := jsSetAdd e.responses uid }
  match e1.proposal i with
  | Except.error err => (some err, e1)
  | Except.ok p =>
    let e2 := { e1 with proposals := e1.proposals.set i (some (p.no uid)) }
    match e2.remarkLeader with
    | Except.error err => (some err, e2)
    | Except.ok e3 => (none, e3)

/-- JS `finalize(index)`: invalid-proposal check first, already-finalized
check second, then `finalized = index`. -/
def Event.finalize (e : Event) (i : Nat) : Option JsError × Event :=
  if ¬ e.slotLive i then (some JsError.invalidProposal, e)
  else if e.isFinalized then (some JsError.finalizedEvent, e)
  else (none, { e with finalized := some i })

/-- JS `finalProposal()`. -/
def Event.finalProposal (e : Event) : Except JsError Proposal :=
  match e.finalized with
  | none => Except.error JsError.unfinalizedEvent
  | some i => e.proposal i

/-- JS `unfinalize()`. -/
def Event.unfinalize (e : Event) : Event := { e with finalized := none }

/-- JS `earliestComparisonDate()`: the finalized proposal's date when
finalized, else the cached earliest date, else `null` (modelled as
`none`). -/
def Event.earliestComparisonDate (e : Event) : Except JsError (Option Ts) :=
  if e.isFinalized then
    match e.finalProposal with
    | Except.error err => Except.error err
    | Except.ok p => Except.ok (some p.ts)
  else Except.ok (e.earliest.map Prod.snd)

/-- JS `latestComparisonDate()`. -/
def Event.latestComparisonDate (e : Event) : Except JsError (Option Ts) :=
  if e.isFinalized then
    match e.finalProposal with
    | Except.error err => Except.error err
    | Except.ok p => Except.ok (some p.ts)
  else Except.ok (e.latest.map Prod.snd)

/-- The plain form produced by `Event#serialize`. -/
structure SerializedEvent where
  id : String
  name : String
  invitees : List String
  responses : List String
  finalized : Option Nat
  proposals : List (Option SerializedProposal)
deriving DecidableEq

/-- JS `Event#serialize`: `Array.from` snapshots the sets;
`this.proposals.map(p => p.serialize())` keeps the holes of the sparse
array in place. -/
def Event.serialize (e : Event) : SerializedEvent :=
  { id := e.id, name := e.name, invitees := e.invitees,
    responses := e.responses, finalized := e.finalized,
    proposals := e.proposals.map (Option.map Proposal.serialize) }

/-- JS `Event.deserialize`: a fresh event whose sets, sparse proposal array
and finalized index are rebuilt from the payload; the `earliest`/`latest`
caches keep the constructor's `null`. -/
def Event.deserialize (se : SerializedEvent) : Event :=
  { Event.mk0 se.id se.name with
      invitees := jsNewSet se.invitees,
      responses := jsNewSet se.responses,
      proposals := se.proposals.map (Option.map Proposal.deserialize),
      finalized := se.finalized }

/-- JS `setName(name)`. -/
def Event.setName (e : Event) (name : String) : Event := { e with name := name }

/-- JS `responded(uid)`. -/
def Event.responded (e : Event) (uid : String) : Event :=
  { e with responses := jsSetAdd e.responses uid }

/-! ### Operation sequences

The mutating methods of `Event`, as an operation language.  Applying an
operation keeps the resulting object state whether or not the call threw
(a JS exception does not roll back mutations already performed). -/

/-- One mutating call on an `Event`. -/
inductive Op where
  | propose (ts : Ts)
  | unpropose (i : Nat)
  | accept (uid : String) (i : Nat)
  | reject (uid : String) (i : Nat)
  | doFinalize (i : Nat)
  | doUnfinalize
  | doInvite (uid : String)
  | doUninvite (uid : String)
  | doSetName (name : String)
  | doResponded (uid : String)
deriving DecidableEq

/-- The object state after one call (exceptions discarded, mutations
kept). -/
def applyOp (e : Event) : Op → Event
  | Op.propose ts =>
    match e.proposeDate ts with
    | Except.ok (e1, _) => e1
    | Except.error _ => e
  | Op.unpropose i => e.unpropose i
  | Op.accept uid i => (e.acceptProposal uid i).2
  | Op.reject uid i => (e.rejectProposal uid i).2
  | Op.doFinalize i => (e.finalize i).2
  | Op.doUnfinalize => e.unfinalize
  | Op.doInvite uid => e.invite uid
  | Op.doUninvite uid => e.uninvite uid
  | Op.doSetName n => e.setName n
  | Op.doResponded uid => e.responded uid

/-- Run a sequence of calls. -/
def runOps (e : Event) (ops : List Op) : Event := ops.foldl applyOp e

/-- A call in an interleaved `proposeDate`/`unpropose` sequence. -/
inductive PUOp where
  | propose (ts : Ts)
  | unpropose (i : Nat)
deriving DecidableEq

/-- Apply one `proposeDate`/`unpropose` call. -/
def applyPU (e : Event) : PUOp → Event
  | PUOp.propose ts =>
    match e.proposeDate ts with
    | Except.ok (e1, _) => e1
    | Except.error _ => e
  | PUOp.unpropose i => e.unpropose i

/-- Run an interleaved `proposeDate`/`unpropose` sequence. -/
def runPU (e : Event) (ops : List PUOp) : Event := ops.foldl applyPU e

/-! ### Specification-side observations -/

/-- The `yesCount()`s of the live entries of a proposal slot list, in
index order. -/
def yesList (l : List (Option Proposal)) : List Nat :=
  l.filterMap (fun o => o.map Proposal.yesCount)

/-- Maximum of a list of naturals (0 when empty). -/
def maxOfList (l : List Nat) : Nat := l.foldl max 0

/-- The `yesCount()`s of the live (non-removed) proposals, in index
order. -/
def liveYesCounts (e : Event) : List Nat := yesList e.proposals

/-- The maximum `yesCount()` across live proposals (0 when none). -/
def maxYes (e : Event) : Nat := maxOfList (liveYesCounts e)

/-- The instants (ms) of the live entries of a slot list, in index
order. -/
def lMs (l : List (Option Proposal)) : List Nat :=
  l.filterMap (fun o => o.map (fun p => p.ts.ms))

/-- The instants (ms) of the live proposals, in index order. -/
def liveMs (e : Event) : List Nat := lMs e.proposals

/-- The instants of the live entries of `l` whose absolute index
(starting at `ind` for the head) differs from `skip` — the portion of
the array a `reduce` in `unpropose` still has to visit. -/
def lMsFrom : List (Option Proposal) → Nat → Nat → List Nat
  | [], _, _ => []
  | none :: rest, ind, skip => lMsFrom rest (ind + 1) skip
  | some p :: rest, ind, skip =>
    if ind = skip then lMsFrom rest (ind + 1) skip
    else p.ts.ms :: lMsFrom rest (ind + 1) skip

/-- The `earliest` cache is consistent with the slot list: absent iff no
live proposal, otherwise it points at a live slot whose timestamp is a
minimum of the live instants. -/
def minCacheOk (l : List (Option Proposal)) (c : Option (Nat × Ts)) : Prop :=
  match c with
  | none => lMs l = []
  | some (j, t) =>
    (∃ p, l.get? j = some (some p) ∧ p.ts = t) ∧ ∀ m ∈ lMs l, t.ms ≤ m

/-- The `latest` cache is consistent with the slot list. -/
def maxCacheOk (l : List (Option Proposal)) (c : Option (Nat × Ts)) : Prop :=
  match c with
  | none => lMs l = []
  | some (j, t) =>
    (∃ p, l.get? j = some (some p) ∧ p.ts = t) ∧ ∀ m ∈ lMs l, m ≤ t.ms

/-- Both caches are consistent with the live proposals. -/
def cachesOk (e : Event) : Prop :=
  minCacheOk e.proposals e.earliest ∧ maxCacheOk e.proposals e.latest

/-! ### Concrete fixtures used by witnesses and counterexamples -/

def tsA : Ts := ⟨100, "UTC"⟩

def tsB : Ts := ⟨200, "UTC"⟩

def tsC : Ts := ⟨50, "UTC"⟩

/-- A fresh event. -/
def evt0 : Event := Event.mk0 "AAA" "party"

/-- One live proposal at index 0. -/
def evt1 : Event := runOps evt0 [Op.propose tsA]

/-- Two live proposals at indices 0 and 1. -/
def evt2 : Event := runOps evt0 [Op.propose tsA, Op.propose tsB]

/-- Two slots: index 0 removed, index 1 live. -/
def evtHole : Event := runOps evt0 [Op.propose tsA, Op.propose tsB, Op.unpropose 0]

/-- Fixture `evt1` finalized at index 0. -/
def evtFin : Event := runOps evt1 [Op.doFinalize 0]

/-- Fixture `evt1` after user a accepts proposal 0. -/
def evtOneVote : Event := (evt1.acceptProposal "a" 0).2

/-- Fixture `evt1` after users a and b accept proposal 0. -/
def evtTwoVotes : Event := (evtOneVote.acceptProposal "b" 0).2

/-- Fixture `evt1` after a successful accept by user u. -/
def evtAcc1 : Event := (evt1.acceptProposal "u" 0).2

/-- JS `evt1` after a successful reject by user u. -/
def evtRej1 : Event := (evt1.rejectProposal "u" 0).2

/-- Fixture `evtHole` after u tried to accept the live proposal 1 (the vote was
recorded before `remarkLeader` threw). -/
def evtC4 : Event := (evtHole.acceptProposal "u" 1).2

/-- A propose/propose/unpropose sequence used by the C5 witness. -/
def opsC5 : List PUOp := [PUOp.propose tsA, PUOp.propose tsC, PUOp.unpropose 0]

/-- Nodup condition on the accepted set of a proposal slot (used as a
decidable hypothesis for the serialization round trip). -/
def acceptedNodup : Option Proposal → Prop
  | none => True
  | some p => p.accepted.Nodup

instance : DecidablePred acceptedNodup := fun o =>
  match o with
  | none => Decidable.isTrue trivial
  | some p => inferInstanceAs (Decidable p.accepted.Nodup)

/-! ### Basic lemmas about the embedded operations -/

instance {ε α : Type} [DecidableEq ε] [DecidableEq α] : DecidableEq (Except ε α) :=
  fun x y =>
  match x, y with
  | Except.ok a, Except.ok b =>
    decidable_of_iff (a = b) ⟨fun h => h ▸ rfl, fun h => Except.ok.inj h⟩
  | Except.error a, Except.error b =>
    decidable_of_iff (a = b) ⟨fun h => h ▸ rfl, fun h => Except.error.inj h⟩
  | Except.ok _, Except.error _ => Decidable.isFalse (fun h => Except.noConfusion h)
  | Except.error _, Except.ok _ => Decidable.isFalse (fun h => Except.noConfusion h)

theorem mem_jsSetAdd_self (s : List String) (x : String) : x ∈ jsSetAdd s x := by
  unfold jsSetAdd
  by_cases h : x ∈ s
  · simp [h]
  · simp [h]

theorem slotLive_iff (e : Event) (i : Nat) :
    e.slotLive i = true ↔ ∃ p, e.proposals.get? i = some (some p) := by
  unfold Event.slotLive
  cases hg : e.proposals.get? i with
  | none => simp
  | some o =>
    cases o with
    | none => simp
    | some p => simp

theorem proposal_ok_iff (e : Event) (i : Nat) (p : Proposal) :
    e.proposal i = Except.ok p ↔ e.proposals.get? i = some (some p) := by
  unfold Event.proposal
  cases hg : e.proposals.get? i with
  | none => simp
  | some o =>
    cases o with
    | none => simp
    | some q => simp

theorem proposal_error_of_dead (e : Event) (i : Nat) (h : e.slotLive i = false) :
    e.proposal i = Except.error JsError.invalidProposal := by
  unfold Event.proposal
  unfold Event.slotLive at h
  cases hg : e.proposals.get? i with
  | none => simp
  | some o =>
    cases o with
    | none => simp
    | some q => rw [hg] at h; simp at h

theorem remarkLeader_ok (e : Event) (h : e.proposals.all Option.isSome = true) :
    e.remarkLeader = Except.ok { e with proposals := markLeaders e.proposals } := by
  unfold Event.remarkLeader
  simp [h]

theorem remarkLeader_error (e : Event) (h : ¬ e.proposals.all Option.isSome = true) :
    e.remarkLeader = Except.error JsError.typeErrorUndefined := by
  unfold Event.remarkLeader
  simp [h]

theorem acceptProposal_dead (e : Event) (uid : String) (i : Nat)
    (h : e.slotLive i = false) :
    e.acceptProposal uid i = (some JsError.invalidProposal,
      { e with invitees := jsSetAdd e.invitees uid,
               responses := jsSetAdd e.responses uid }) := by
  have h1 : Event.slotLive
      { e with invitees := jsSetAdd e.invitees uid,
               responses := jsSetAdd e.responses uid } i = false := h
  unfold Event.acceptProposal
  dsimp only
  rw [proposal_error_of_dead _ i h1]

theorem rejectProposal_dead (e : Event) (uid : String) (i : Nat)
    (h : e.slotLive i = false) :
    e.rejectProposal uid i = (some JsError.invalidProposal,
      { e with responses := jsSetAdd e.responses uid }) := by
  have h1 : Event.slotLive { e with responses := jsSetAdd e.responses uid } i = false := h
  unfold Event.rejectProposal
  dsimp only
  rw [proposal_error_of_dead _ i h1]

theorem acceptProposal_live_ok (e : Event) (uid : String) (i : Nat) (p : Proposal)
    (hp : e.proposals.get? i = some (some p))
    (hall : (e.proposals.set i (some (p.yes uid))).all Option.isSome = true) :
    e.acceptProposal uid i = (none,
      { e with invitees := jsSetAdd e.invitees uid,
               responses := jsSetAdd e.responses uid,
               proposals := markLeaders (e.proposals.set i (some (p.yes uid))) }) := by
  unfold Event.acceptProposal
  dsimp only
  rw [show Event.proposal
      { e with invitees := jsSetAdd e.invitees uid,
               responses := jsSetAdd e.responses uid } i = Except.ok p from
    (proposal_ok_iff _ _ _).mpr hp]
  dsimp only
  rw [remarkLeader_ok _ hall]

theorem acceptProposal_live_hole (e : Event) (uid : String) (i : Nat) (p : Proposal)
    (hp : e.proposals.get? i = some (some p))
    (hall : (e.proposals.set i (some (p.yes uid))).all Option.isSome = false) :
    e.acceptProposal uid i = (some JsError.typeErrorUndefined,
      { e with invitees := jsSetAdd e.invitees uid,
               responses := jsSetAdd e.responses uid,
               proposals := e.proposals.set i (some (p.yes uid)) }) := by
  unfold Event.acceptProposal
  dsimp only
  rw [show Event.proposal
      { e with invitees := jsSetAdd e.invitees uid,
               responses := jsSetAdd e.responses uid } i = Except.ok p from
    (proposal_ok_iff _ _ _).mpr hp]
  dsimp only
  rw [remarkLeader_error _ (by rw [hall]; exact Bool.false_ne_true)]

theorem rejectProposal_live_ok (e : Event) (uid : String) (i : Nat) (p : Proposal)
    (hp : e.proposals.get? i = some (some p))
    (hall : (e.proposals.set i (some (p.no uid))).all Option.isSome = true) :
    e.rejectProposal uid i = (none,
      { e with responses := jsSetAdd e.responses uid,
               proposals := markLeaders (e.proposals.set i (some (p.no uid))) }) := by
  unfold Event.rejectProposal
  dsimp only
  rw [show Event.proposal { e with responses := jsSetAdd e.responses uid } i = Except.ok p from
    (proposal_ok_iff _ _ _).mpr hp]
  dsimp only
  rw [remarkLeader_ok _ hall]

theorem rejectProposal_live_hole (e : Event) (uid : String) (i : Nat) (p : Proposal)
    (hp : e.proposals.get? i = some (some p))
    (hall : (e.proposals.set i (some (p.no uid))).all Option.isSome = false) :
    e.rejectProposal uid i = (some JsError.typeErrorUndefined,
      { e with responses := jsSetAdd e.responses uid,
               proposals := e.proposals.set i (some (p.no uid)) }) := by
  unfold Event.rejectProposal
  dsimp only
  rw [show Event.proposal { e with responses := jsSetAdd e.responses uid } i = Except.ok p from
    (proposal_ok_iff _ _ _).mpr hp]
  dsimp only
  rw [remarkLeader_error _ (by rw [hall]; exact Bool.false_ne_true)]

theorem finalize_dead (e : Event) (k : Nat) (h : e.slotLive k = false) :
    e.finalize k = (some JsError.invalidProposal, e) := by
  unfold Event.finalize
  simp [h]

theorem finalize_already (e : Event) (k : Nat) (h1 : e.slotLive k = true)
    (h2 : e.isFinalized = true) :
    e.finalize k = (some JsError.finalizedEvent, e) := by
  unfold Event.finalize
  simp [h1, h2]

theorem finalize_ok (e : Event) (k : Nat) (h1 : e.slotLive k = true)
    (h2 : e.isFinalized = false) :
    e.finalize k = (none, { e with finalized := some k }) := by
  unfold Event.finalize
  simp [h1, h2]

/-! ### Claims -/

/-- C2: contrary to the spec, voting on a live proposal of an event that
has a removed slot does not succeed: `remarkLeader` iterates the sparse
proposals array with `for...of`, meets `undefined` at the hole and
throws a `TypeError`.  The vote and roster updates have already been
applied when the exception propagates.  Concretely: two proposals,
`unpropose(0)`, then `acceptProposal('u', 1)` / `rejectProposal('u', 1)`
both throw. -/
theorem c2_vote_after_removal_throws_typeerror :
    evtHole.slotLive 1 = true ∧
    evtHole.proposals.get? 0 = some none ∧
    (evtHole.acceptProposal "u" 1).1 = some JsError.typeErrorUndefined ∧
    (evtHole.acceptProposal "u" 1).2.proposals.get? 1 =
      some (some { ts := tsB, accepted := ["u"], leading := false }) ∧
    (evtHole.acceptProposal "u" 1).2.invitees = ["u"] ∧
    (evtHole.rejectProposal "u" 1).1 = some JsError.typeErrorUndefined := by
  decide

/-- C3 counterexample: `acceptProposal` on a dead index raises
`InvalidProposal` but has already added the uid to `invitees` and
`responses`; `rejectProposal` likewise has already extended
`responses`.  The claim that the event state is unchanged is false. -/
theorem c3_counterexample :
    (evt0.acceptProposal "u" 0).1 = some JsError.invalidProposal ∧
    (evt0.acceptProposal "u" 0).2.invitees ≠ evt0.invitees ∧
    (evt0.acceptProposal "u" 0).2.responses ≠ evt0.responses ∧
    (evt0.rejectProposal "u" 0).1 = some JsError.invalidProposal ∧
    (evt0.rejectProposal "u" 0).2.responses ≠ evt0.responses := by
  decide

/-- C3 (amended): when `i` is not a live proposal slot, both calls raise
`InvalidProposal` and leave the proposals, votes, leader flags,
finalized marker and caches unchanged, but the uid has already been
added to `invitees` and `responses` (accept), respectively `responses`
(reject), before the failure. -/
theorem c3_invalid_vote_raises_after_roster_update (e : Event) (uid : String)
    (i : Nat) (h : e.slotLive i = false) :
    e.acceptProposal uid i = (some JsError.invalidProposal,
      { e with invitees := jsSetAdd e.invitees uid,
               responses := jsSetAdd e.responses uid }) ∧
    e.rejectProposal uid i = (some JsError.invalidProposal,
      { e with responses := jsSetAdd e.responses uid }) :=
  ⟨acceptProposal_dead e uid i h, rejectProposal_dead e uid i h⟩

/-- C3 witness: the amended statement evaluated on a fresh event at
index 0. -/
theorem c3_witness :
    evt0.slotLive 0 = false ∧
    (evt0.acceptProposal "u" 0 = (some JsError.invalidProposal,
      { evt0 with invitees := jsSetAdd evt0.invitees "u",
                  responses := jsSetAdd evt0.responses "u" }) ∧
     evt0.rejectProposal "u" 0 = (some JsError.invalidProposal,
      { evt0 with responses := jsSetAdd evt0.responses "u" })) :=
  ⟨by decide, c3_invalid_vote_raises_after_roster_update evt0 "u" 0 (by decide)⟩

/-- C8: a successful `acceptProposal` adds the uid to both `invitees`
and `responses`; a successful `rejectProposal` adds it to `responses`
and leaves `invitees` untouched, so a uid can reject without ever being
invited. -/
theorem c8_accept_adds_both_reject_only_responses (e : Event) (uid : String)
    (i : Nat) (e1 e2 : Event)
    (ha : e.acceptProposal uid i = (none, e1))
    (hr : e.rejectProposal uid i = (none, e2)) :
    e1.invitees = jsSetAdd e.invitees uid ∧ e1.responses = jsSetAdd e.responses uid ∧
    uid ∈ e1.invitees ∧ uid ∈ e1.responses ∧
    e2.invitees = e.invitees ∧ e2.responses = jsSetAdd e.responses uid ∧
    uid ∈ e2.responses := by
  cases hl : e.slotLive i with
  | false =>
    rw [acceptProposal_dead e uid i hl] at ha
    injection ha with h1 _
    exact Option.noConfusion h1
  | true =>
    obtain ⟨p, hp⟩ := (slotLive_iff e i).mp hl
    cases hally : (e.proposals.set i (some (p.yes uid))).all Option.isSome with
    | false =>
      rw [acceptProposal_live_hole e uid i p hp hally] at ha
      injection ha with h1 _
      exact Option.noConfusion h1
    | true =>
      rw [acceptProposal_live_ok e uid i p hp hally] at ha
      cases halln : (e.proposals.set i (some (p.no uid))).all Option.isSome with
      | false =>
        rw [rejectProposal_live_hole e uid i p hp halln] at hr
        injection hr with h1 _
        exact Option.noConfusion h1
      | true =>
        rw [rejectProposal_live_ok e uid i p hp halln] at hr
        injection ha with _ h2
        injection hr with _ h3
        subst h2
        subst h3
        exact ⟨rfl, rfl, mem_jsSetAdd_self _ _, mem_jsSetAdd_self _ _, rfl, rfl,
          mem_jsSetAdd_self _ _⟩

/-- C8 witness: the statement evaluated on an event with one live
proposal. -/
theorem c8_witness :
    evt1.acceptProposal "u" 0 = (none, evtAcc1) ∧
    evt1.rejectProposal "u" 0 = (none, evtRej1) ∧
    (evtAcc1.invitees = jsSetAdd evt1.invitees "u" ∧
     evtAcc1.responses = jsSetAdd evt1.responses "u" ∧
     "u" ∈ evtAcc1.invitees ∧ "u" ∈ evtAcc1.responses ∧
     evtRej1.invitees = evt1.invitees ∧
     evtRej1.responses = jsSetAdd evt1.responses "u" ∧
     "u" ∈ evtRej1.responses) :=
  ⟨by decide, by decide,
    c8_accept_adds_both_reject_only_responses evt1 "u" 0 evtAcc1 evtRej1
      (by decide) (by decide)⟩

/-- C10: `unpropose` recomputes no leader marks: every proposal that
survives `unpropose(i)` is exactly the proposal that sat in its slot
before the call, so in particular its `isLeading()` value is
unchanged. -/
theorem c10_unpropose_preserves_leading (e : Event) (i j : Nat) (p1 : Proposal)
    (h : (e.unpropose i).proposals.get? j = some (some p1)) :
    ∃ p, e.proposals.get? j = some (some p) ∧ p1.isLeading = p.isLeading := by
  refine ⟨p1, ?_, rfl⟩
  have hpro : (e.unpropose i).proposals = e.proposals.set i none := rfl
  rw [hpro] at h
  by_cases hij : i = j
  · subst hij
    rw [List.get?_set_eq] at h
    cases hg : e.proposals.get? i with
    | none => rw [hg] at h; simp at h
    | some o => rw [hg] at h; simp at h
  · rw [List.get?_set_ne _ _ hij] at h
    exact h

/-- C10 witness: removing slot 0 of a two-proposal event leaves the
proposal at slot 1 (and its leading flag) untouched. -/
theorem c10_witness :
    (evt2.unpropose 0).proposals.get? 1 = some (some (Proposal.mk0 tsB)) ∧
    (∃ p, evt2.proposals.get? 1 = some (some p) ∧
      (Proposal.mk0 tsB).isLeading = p.isLeading) :=
  ⟨by decide, c10_unpropose_preserves_leading evt2 0 1 (Proposal.mk0 tsB) (by decide)⟩

/-- C6 counterexample: on a finalized event, `finalize` with an index
that is not a live slot raises `InvalidProposal`, not
`EventAlreadyFinalized` — the invalid-proposal check runs first, so the
second failure is not "always EventAlreadyFinalized regardless of which
index is passed". -/
theorem c6_counterexample :
    evtFin.isFinalized = true ∧
    (evtFin.finalize 1).1 = some JsError.invalidProposal ∧
    (evtFin.finalize 1).1 ≠ some JsError.finalizedEvent := by
  decide

/-- C6 (amended): after a successful `finalize(i)`, a second `finalize(j)`
without an intervening `unfinalize` always fails and leaves the state
unchanged, but the error is `EventAlreadyFinalized` only when `j` is a
live slot; for a dead `j` it is `InvalidProposal`.  On an unfinalized
event, `finalize(k)` fails with `InvalidProposal` when `k` is not live
and otherwise succeeds, setting `finalized = k`. -/
theorem c6_second_finalize_fails (e e1 f : Event) (i j k : Nat)
    (h : e.finalize i = (none, e1)) (hf : f.isFinalized = false) :
    e1.finalized = some i ∧
    (e1.finalize j).2 = e1 ∧
    (e1.finalize j).1 =
      (if e1.slotLive j then some JsError.finalizedEvent
       else some JsError.invalidProposal) ∧
    (f.slotLive k = false → f.finalize k = (some JsError.invalidProposal, f)) ∧
    (f.slotLive k = true → f.finalize k = (none, { f with finalized := some k })) := by
  have he1 : e1 = { e with finalized := some i } := by
    cases hsl : e.slotLive i with
    | false =>
      rw [finalize_dead e i hsl] at h
      injection h with h1 _
      exact Option.noConfusion h1
    | true =>
      cases hfin : e.isFinalized with
      | true =>
        rw [finalize_already e i hsl hfin] at h
        injection h with h1 _
        exact Option.noConfusion h1
      | false =>
        rw [finalize_ok e i hsl hfin] at h
        injection h with _ h2
        exact h2.symm
  subst he1
  have hfin1 : Event.isFinalized { e with finalized := some i } = true := rfl
  refine ⟨rfl, ?_, ?_, ?_, ?_⟩
  · cases hsl : Event.slotLive { e with finalized := some i } j with
    | false => rw [finalize_dead _ j hsl]
    | true => rw [finalize_already _ j hsl hfin1]
  · cases hsl : Event.slotLive { e with finalized := some i } j with
    | false => rw [finalize_dead _ j hsl]; simp [hsl]
    | true => rw [finalize_already _ j hsl hfin1]; simp [hsl]
  · intro hk
    exact finalize_dead f k hk
  · intro hk
    exact finalize_ok f k hk hf

/-- C6 witness: the amended statement evaluated with `evt1.finalize 0`
as the successful first call, `j = 1` (dead slot on the finalized
event) and the unfinalized event `evt1` with dead slot `k = 5`. -/
theorem c6_witness :
    evt1.finalize 0 = (none, evtFin) ∧ evt1.isFinalized = false ∧
    (evtFin.finalized = some 0 ∧
     (evtFin.finalize 1).2 = evtFin ∧
     (evtFin.finalize 1).1 =
       (if evtFin.slotLive 1 then some JsError.finalizedEvent
        else some JsError.invalidProposal) ∧
     (evt1.slotLive 5 = false →
       evt1.finalize 5 = (some JsError.invalidProposal, evt1)) ∧
     (evt1.slotLive 5 = true →
       evt1.finalize 5 = (none, { evt1 with finalized := some 5 }))) :=
  ⟨by decide, by decide,
    c6_second_finalize_fails evt1 evtFin evt1 0 1 5 (by decide) (by decide)⟩

/-- C9: `acceptProposal`/`rejectProposal` never consult the finalized
marker: on a finalized event with a live index they raise no
finalization error, and both the error and the resulting state are
exactly those of the same call in the open state (with the finalized
marker carried along unchanged). -/
theorem c9_votes_ignore_finalization (e : Event) (k : Nat) (uid : String) (i : Nat)
    (hf : e.finalized = some k) (hl : e.slotLive i = true) :
    (e.acceptProposal uid i).1 ≠ some JsError.finalizedEvent ∧
    (e.rejectProposal uid i).1 ≠ some JsError.finalizedEvent ∧
    e.acceptProposal uid i =
      ((Event.acceptProposal { e with finalized := none } uid i).1,
       { (Event.acceptProposal { e with finalized := none } uid i).2 with
           finalized := some k }) ∧
    e.rejectProposal uid i =
      ((Event.rejectProposal { e with finalized := none } uid i).1,
       { (Event.rejectProposal { e with finalized := none } uid i).2 with
           finalized := some k }) := by
  obtain ⟨p, hp⟩ := (slotLive_iff e i).mp hl
  have hp0 : Event.proposals { e with finalized := none } = e.proposals := rfl
  refine ⟨?_, ?_, ?_, ?_⟩
  · cases hally : (e.proposals.set i (some (p.yes uid))).all Option.isSome with
    | true => rw [acceptProposal_live_ok e uid i p hp hally]; simp
    | false => rw [acceptProposal_live_hole e uid i p hp hally]; simp
  · cases halln : (e.proposals.set i (some (p.no uid))).all Option.isSome with
    | true => rw [rejectProposal_live_ok e uid i p hp halln]; simp
    | false => rw [rejectProposal_live_hole e uid i p hp halln]; simp
  · cases hally : (e.proposals.set i (some (p.yes uid))).all Option.isSome with
    | true =>
      rw [acceptProposal_live_ok e uid i p hp hally,
        acceptProposal_live_ok { e with finalized := none } uid i p hp hally]
      rw [show Event.finalized e = some k from hf]
    | false =>
      rw [acceptProposal_live_hole e uid i p hp hally,
        acceptProposal_live_hole { e with finalized := none } uid i p hp hally]
      rw [show Event.finalized e = some k from hf]
  · cases halln : (e.proposals.set i (some (p.no uid))).all Option.isSome with
    | true =>
      rw [rejectProposal_live_ok e uid i p hp halln,
        rejectProposal_live_ok { e with finalized := none } uid i p hp halln]
      rw [show Event.finalized e = some k from hf]
    | false =>
      rw [rejectProposal_live_hole e uid i p hp halln,
        rejectProposal_live_hole { e with finalized := none } uid i p hp halln]
      rw [show Event.finalized e = some k from hf]

/-- C9 witness: voting on the finalized event `evtFin` (finalized at 0)
at its live index 0. -/
theorem c9_witness :
    evtFin.finalized = some 0 ∧ evtFin.slotLive 0 = true ∧
    ((evtFin.acceptProposal "u" 0).1 ≠ some JsError.finalizedEvent ∧
     (evtFin.rejectProposal "u" 0).1 ≠ some JsError.finalizedEvent ∧
     evtFin.acceptProposal "u" 0 =
       ((Event.acceptProposal { evtFin with finalized := none } "u" 0).1,
        { (Event.acceptProposal { evtFin with finalized := none } "u" 0).2 with
            finalized := some 0 }) ∧
     evtFin.rejectProposal "u" 0 =
       ((Event.rejectProposal { evtFin with finalized := none } "u" 0).1,
        { (Event.rejectProposal { evtFin with finalized := none } "u" 0).2 with
            finalized := some 0 })) :=
  ⟨by decide, by decide,
    c9_votes_ignore_finalization evtFin 0 "u" 0 (by decide) (by decide)⟩

theorem proposeDate_ok_inv (e : Event) (ts : Ts) (e1 : Event) (r : Nat)
    (h : e.proposeDate ts = Except.ok (e1, r)) :
    r = e.proposals.length ∧
    e1.proposals = e.proposals ++ [some (Proposal.mk0 ts)] ∧
    e1.finalized = e.finalized := by
  unfold Event.proposeDate at h
  cases hfin : e.isFinalized with
  | true => rw [hfin] at h; simp at h
  | false =>
    rw [hfin] at h
    simp only [Bool.false_eq_true, if_false] at h
    injection h with h1
    injection h1 with h2 h3
    subst h2
    exact ⟨h3.symm, rfl, rfl⟩

theorem markLeaders_length (l : List (Option Proposal)) :
    (markLeaders l).length = l.length := by
  unfold markLeaders
  exact List.length_map _ _

theorem markLeaders_get?_hole (l : List (Option Proposal)) (i : Nat)
    (h : l.get? i = some none) : (markLeaders l).get? i = some none := by
  unfold markLeaders
  rw [List.get?_map, h]
  rfl

theorem finalize_snd_proposals (e : Event) (k : Nat) :
    (e.finalize k).2.proposals = e.proposals := by
  unfold Event.finalize
  split
  · rfl
  · split
    · rfl
    · rfl

theorem applyOp_dead (e : Event) (i : Nat) (hlen : i < e.proposals.length)
    (hdead : e.proposals.get? i = some none) (op : Op) :
    i < (applyOp e op).proposals.length ∧
    (applyOp e op).proposals.get? i = some none := by
  cases op with
  | propose ts =>
    dsimp only [applyOp]
    cases hr : e.proposeDate ts with
    | error err => exact ⟨hlen, hdead⟩
    | ok pr =>
      obtain ⟨e1, r⟩ := pr
      obtain ⟨-, h2, -⟩ := proposeDate_ok_inv e ts e1 r hr
      refine ⟨?_, ?_⟩
      · rw [h2, List.length_append]; omega
      · rw [h2, List.get?_append hlen]; exact hdead
  | unpropose j =>
    have hpro : (e.unpropose j).proposals = e.proposals.set j none := rfl
    dsimp only [applyOp]
    refine ⟨?_, ?_⟩
    · rw [hpro, List.length_set]; exact hlen
    · rw [hpro]
      by_cases hij : j = i
      · subst hij; rw [List.get?_set_eq, hdead]; rfl
      · rw [List.get?_set_ne _ _ hij]; exact hdead
  | accept uid j =>
    dsimp only [applyOp]
    cases hl : e.slotLive j with
    | false =>
      rw [acceptProposal_dead e uid j hl]
      exact ⟨hlen, hdead⟩
    | true =>
      obtain ⟨p, hp⟩ := (slotLive_iff e j).mp hl
      have hji : j ≠ i := by
        intro hh
        subst hh
        rw [hp] at hdead
        injection hdead with hc
        exact Option.noConfusion hc
      cases hall : (e.proposals.set j (some (p.yes uid))).all Option.isSome with
      | true =>
        rw [acceptProposal_live_ok e uid j p hp hall]
        refine ⟨?_, ?_⟩
        · show i < (markLeaders (e.proposals.set j (some (p.yes uid)))).length
          rw [markLeaders_length, List.length_set]; exact hlen
        · show (markLeaders (e.proposals.set j (some (p.yes uid)))).get? i = some none
          exact markLeaders_get?_hole _ i (by rw [List.get?_set_ne _ _ hji]; exact hdead)
      | false =>
        rw [acceptProposal_live_hole e uid j p hp hall]
        refine ⟨?_, ?_⟩
        · show i < (e.proposals.set j (some (p.yes uid))).length
          rw [List.length_set]; exact hlen
        · show (e.proposals.set j (some (p.yes uid))).get? i = some none
          rw [List.get?_set_ne _ _ hji]; exact hdead
  | reject uid j =>
    dsimp only [applyOp]
    cases hl : e.slotLive j with
    | false =>
      rw [rejectProposal_dead e uid j hl]
      exact ⟨hlen, hdead⟩
    | true =>
      obtain ⟨p, hp⟩ := (slotLive_iff e j).mp hl
      have hji : j ≠ i := by
        intro hh
        subst hh
        rw [hp] at hdead
        injection hdead with hc
        exact Option.noConfusion hc
      cases hall : (e.proposals.set j (some (p.no uid))).all Option.isSome with
      | true =>
        rw [rejectProposal_live_ok e uid j p hp hall]
        refine ⟨?_, ?_⟩
        · show i < (markLeaders (e.proposals.set j (some (p.no uid)))).length
          rw [markLeaders_length, List.length_set]; exact hlen
        · show (markLeaders (e.proposals.set j (some (p.no uid)))).get? i = some none
          exact markLeaders_get?_hole _ i (by rw [List.get?_set_ne _ _ hji]; exact hdead)
      | false =>
        rw [rejectProposal_live_hole e uid j p hp hall]
        refine ⟨?_, ?_⟩
        · show i < (e.proposals.set j (some (p.no uid))).length
          rw [List.length_set]; exact hlen
        · show (e.proposals.set j (some (p.no uid))).get? i = some none
          rw [List.get?_set_ne _ _ hji]; exact hdead
  | doFinalize j =>
    dsimp only [applyOp]
    rw [finalize_snd_proposals e j]
    exact ⟨hlen, hdead⟩
  | doUnfinalize => exact ⟨hlen, hdead⟩
  | doInvite uid => exact ⟨hlen, hdead⟩
  | doUninvite uid => exact ⟨hlen, hdead⟩
  | doSetName n => exact ⟨hlen, hdead⟩
  | doResponded uid => exact ⟨hlen, hdead⟩

theorem runOps_dead : ∀ (ops : List Op) (e : Event) (i : Nat),
    i < e.proposals.length → e.proposals.get? i = some none →
    i < (runOps e ops).proposals.length ∧
    (runOps e ops).proposals.get? i = some none := by
  intro ops
  induction ops with
  | nil => intro e i h1 h2; exact ⟨h1, h2⟩
  | cons op rest ih =>
    intro e i h1 h2
    obtain ⟨h3, h4⟩ := applyOp_dead e i h1 h2 op
    exact ih (applyOp e op) i h3 h4

theorem unpropose_kills (e : Event) (i : Nat) (hlen : i < e.proposals.length) :
    (e.unpropose i).proposals.get? i = some none ∧
    (e.unpropose i).proposals.length = e.proposals.length := by
  have hpro : (e.unpropose i).proposals = e.proposals.set i none := rfl
  refine ⟨?_, ?_⟩
  · rw [hpro, List.get?_set_eq, List.get?_eq_get hlen]
    rfl
  · rw [hpro, List.length_set]

theorem proposal_error_of_hole (e : Event) (i : Nat)
    (h : e.proposals.get? i = some none) :
    e.proposal i = Except.error JsError.invalidProposal := by
  apply proposal_error_of_dead
  unfold Event.slotLive
  rw [h]

/-- C7 counterexample: `unpropose(0)` on an event with no proposals is a
no-op, and the very next `proposeDate` hands out index 0, which is then
a valid proposal again — so for an index that never referenced a slot
the claim fails. -/
theorem c7_counterexample :
    ((evt0.unpropose 0).proposeDate tsA).toOption.map Prod.snd = some 0 ∧
    ((evt0.unpropose 0).proposeDate tsA).toOption.map
      (fun pr => Event.proposal pr.1 0) = some (Except.ok (Proposal.mk0 tsA)) := by
  decide

/-- C7 (amended): for an index `i` that references an existing slot
(`i < proposals.length`), after `unpropose(i)` the slot is dead:
`proposal(i)` fails with `InvalidProposal` immediately and after any
further sequence of calls, no later `proposeDate` ever returns `i`, and
if `i` was the finalized index the marker is cleared so `finalProposal()`
fails with `EventNotFinalized`. -/
theorem c7_removed_indices_never_return (e : Event) (i : Nat)
    (hlen : i < e.proposals.length) (ops : List Op) (ts : Ts) :
    Event.proposal (e.unpropose i) i = Except.error JsError.invalidProposal ∧
    Event.proposal (runOps (e.unpropose i) ops) i =
      Except.error JsError.invalidProposal ∧
    (∀ e1 r, (runOps (e.unpropose i) ops).proposeDate ts = Except.ok (e1, r) →
       r ≠ i) ∧
    (e.finalized = some i → (e.unpropose i).finalized = none ∧
      (e.unpropose i).finalProposal = Except.error JsError.unfinalizedEvent) := by
  obtain ⟨hk1, hk2⟩ := unpropose_kills e i hlen
  have hrun := runOps_dead ops (e.unpropose i) i (by rw [hk2]; exact hlen) hk1
  refine ⟨proposal_error_of_hole _ _ hk1, proposal_error_of_hole _ _ hrun.2, ?_, ?_⟩
  · intro e1 r hr
    obtain ⟨h1, -, -⟩ := proposeDate_ok_inv _ ts e1 r hr
    have h2 := hrun.1
    omega
  · intro hf
    have hfz : (e.unpropose i).finalized = none := by
      have hd : (e.unpropose i).finalized =
          (if e.finalized = some i then none else e.finalized) := rfl
      rw [hd, if_pos hf]
    refine ⟨hfz, ?_⟩
    unfold Event.finalProposal
    rw [hfz]

/-- C7 witness: remove slot 0 of a two-proposal event, then run a
further propose and an accept; slot 0 stays invalid and the propose
cannot return 0. -/
theorem c7_witness :
    0 < evt2.proposals.length ∧
    (Event.proposal (evt2.unpropose 0) 0 = Except.error JsError.invalidProposal ∧
     Event.proposal (runOps (evt2.unpropose 0) [Op.propose tsC, Op.accept "u" 1]) 0 =
       Except.error JsError.invalidProposal ∧
     (∀ e1 r, (runOps (evt2.unpropose 0) [Op.propose tsC, Op.accept "u" 1]).proposeDate tsB =
        Except.ok (e1, r) → r ≠ 0) ∧
     (evt2.finalized = some 0 → (evt2.unpropose 0).finalized = none ∧
       (evt2.unpropose 0).finalProposal = Except.error JsError.unfinalizedEvent)) :=
  ⟨by decide,
    c7_removed_indices_never_return evt2 0 (by decide) [Op.propose tsC, Op.accept "u" 1] tsB⟩

theorem ite_gt_eq_max (a b : Nat) : (if b > a then b else a) = max a b := by
  by_cases h : b > a
  · rw [if_pos h, Nat.max_eq_right (Nat.le_of_lt h)]
  · rw [if_neg h, Nat.max_eq_left (Nat.le_of_not_lt h)]

theorem jsLeadingCount_foldl : ∀ (l : List (Option Proposal)) (a : Nat),
    l.foldl
      (fun acc o =>
        match o with
        | some p => if p.yesCount > acc then p.yesCount else acc
        | none => acc) a = (yesList l).foldl max a := by
  intro l
  induction l with
  | nil => intro a; rfl
  | cons o rest ih =>
    intro a
    cases o with
    | none => exact ih a
    | some p =>
      show rest.foldl _ (if p.yesCount > a then p.yesCount else a) =
        (yesList (some p :: rest)).foldl max a
      rw [ite_gt_eq_max]
      have hyl : yesList (some p :: rest) = p.yesCount :: yesList rest := rfl
      rw [hyl]
      exact ih (max a p.yesCount)

theorem foldl_max_init : ∀ (L : List Nat) (a : Nat),
    L.foldl max a = max a (L.foldl max 0) := by
  intro L
  induction L with
  | nil => intro a; exact (Nat.max_zero a).symm
  | cons x L ih =>
    intro a
    show L.foldl max (max a x) = max a ((x :: L).foldl max 0)
    rw [ih (max a x)]
    show max (max a x) (L.foldl max 0) = max a (L.foldl max (max 0 x))
    rw [ih (max 0 x), Nat.zero_max, Nat.max_assoc]

theorem jsLeadingCount_eq (l : List (Option Proposal)) :
    jsLeadingCount l = max 2 (maxOfList (yesList l)) := by
  unfold jsLeadingCount maxOfList
  rw [jsLeadingCount_foldl l 2, foldl_max_init]

theorem maxOfList_cons (x : Nat) (L : List Nat) :
    maxOfList (x :: L) = max x (maxOfList L) := by
  unfold maxOfList
  show L.foldl max (max 0 x) = max x (L.foldl max 0)
  rw [foldl_max_init L (max 0 x), Nat.zero_max]

theorem mem_le_maxOfList (m : Nat) : ∀ (L : List Nat), m ∈ L → m ≤ maxOfList L := by
  intro L
  induction L with
  | nil => intro h; cases h
  | cons x L ih =>
    intro h
    rw [maxOfList_cons]
    rcases List.mem_cons.mp h with h1 | h1
    · subst h1; exact Nat.le_max_left _ _
    · exact Nat.le_trans (ih h1) (Nat.le_max_right _ _)

theorem yesList_flagmap (c : Nat) : ∀ (l : List (Option Proposal)),
    yesList (l.map (Option.map
      (fun p => { p with leading := p.yesCount == c }))) = yesList l := by
  intro l
  induction l with
  | nil => rfl
  | cons o rest ih =>
    cases o with
    | none =>
      show yesList (none :: _) = yesList (none :: rest)
      show yesList (rest.map _) = yesList rest
      exact ih
    | some p =>
      show Proposal.yesCount { p with leading := p.yesCount == c } ::
        yesList (rest.map _) = p.yesCount :: yesList rest
      rw [ih]
      rfl

theorem yesList_markLeaders (l : List (Option Proposal)) :
    yesList (markLeaders l) = yesList l :=
  yesList_flagmap (jsLeadingCount l) l

theorem markLeaders_get?_inv (l : List (Option Proposal)) (j : Nat) (p1 : Proposal)
    (h : (markLeaders l).get? j = some (some p1)) :
    ∃ q, l.get? j = some (some q) ∧
      p1 = { q with leading := q.yesCount == jsLeadingCount l } := by
  unfold markLeaders at h
  rw [List.get?_map] at h
  cases hg : l.get? j with
  | none => rw [hg] at h; exact Option.noConfusion h
  | some o =>
    rw [hg] at h
    cases o with
    | none => simp at h
    | some q =>
      refine ⟨q, rfl, ?_⟩
      simp only [Option.map_some'] at h
      injection h with h1
      injection h1 with h2
      exact h2.symm

theorem markLeaders_leading_iff (l : List (Option Proposal)) (j : Nat) (p1 : Proposal)
    (h : (markLeaders l).get? j = some (some p1)) :
    (p1.isLeading = true ↔
      (p1.yesCount = maxOfList (yesList (markLeaders l)) ∧
       2 ≤ maxOfList (yesList (markLeaders l)))) := by
  obtain ⟨q, hq, hp1⟩ := markLeaders_get?_inv l j p1 h
  rw [yesList_markLeaders]
  have hyes : p1.yesCount = q.yesCount := by rw [hp1]; rfl
  have hmem : q.yesCount ∈ yesList l :=
    List.mem_filterMap.mpr ⟨some q, List.get?_mem hq, rfl⟩
  have hle : q.yesCount ≤ maxOfList (yesList l) := mem_le_maxOfList _ _ hmem
  have hlead : p1.isLeading = (q.yesCount == jsLeadingCount l) := by rw [hp1]; rfl
  rw [hlead, hyes, jsLeadingCount_eq]
  rcases Nat.le_total 2 (maxOfList (yesList l)) with h2 | h2
  · rw [Nat.max_eq_right h2]
    constructor
    · intro ht
      exact ⟨eq_of_beq ht, h2⟩
    · intro ⟨h3, _⟩
      rw [h3]
      exact beq_self_eq_true _
  · rw [Nat.max_eq_left h2]
    constructor
    · intro ht
      have h3 := eq_of_beq ht
      constructor
      · omega
      · omega
    · intro ⟨h3, h4⟩
      have : maxOfList (yesList l) = 2 := Nat.le_antisymm h2 h4
      rw [h3, this]
      exact beq_self_eq_true _

/-- C1 counterexample: two accepts on the single proposal of an event
leave it marked leading although the maximum `yesCount()` is exactly 2,
not strictly greater than 2 — `remarkLeader` marks proposals whose
count *equals* the floor-respecting maximum `max(2, counts)`. -/
theorem c1_counterexample :
    (evt1.acceptProposal "a" 0).1 = none ∧
    (evtOneVote.acceptProposal "b" 0).1 = none ∧
    evtTwoVotes.proposals.get? 0 =
      some (some { ts := tsA, accepted := ["a", "b"], leading := true }) ∧
    maxYes evtTwoVotes = 2 := by
  decide

/-- C1 (amended): after every successful `acceptProposal` or
`rejectProposal`, a live proposal is marked leading iff its `yesCount()`
equals the maximum `yesCount()` across live proposals and that maximum
is at least 2 (so a maximum of exactly 2 already produces leaders; with
0 or 1 votes nobody leads, and ties at the maximum give several
simultaneous leaders). -/
theorem c1_leading_iff_max_yes (e : Event) (uid : String) (i : Nat) (e1 : Event)
    (h : e.acceptProposal uid i = (none, e1) ∨
         e.rejectProposal uid i = (none, e1)) :
    ∀ j p1, e1.proposals.get? j = some (some p1) →
      (p1.isLeading = true ↔
        (p1.yesCount = maxYes e1 ∧ 2 ≤ maxYes e1)) := by
  have key : ∃ L, e1.proposals = markLeaders L := by
    rcases h with ha | hr
    · cases hl : e.slotLive i with
      | false =>
        rw [acceptProposal_dead e uid i hl] at ha
        injection ha with h1 _
        exact Option.noConfusion h1
      | true =>
        obtain ⟨p, hp⟩ := (slotLive_iff e i).mp hl
        cases hall : (e.proposals.set i (some (p.yes uid))).all Option.isSome with
        | false =>
          rw [acceptProposal_live_hole e uid i p hp hall] at ha
          injection ha with h1 _
          exact Option.noConfusion h1
        | true =>
          rw [acceptProposal_live_ok e uid i p hp hall] at ha
          injection ha with _ h2
          exact ⟨_, by rw [← h2]⟩
    · cases hl : e.slotLive i with
      | false =>
        rw [rejectProposal_dead e uid i hl] at hr
        injection hr with h1 _
        exact Option.noConfusion h1
      | true =>
        obtain ⟨p, hp⟩ := (slotLive_iff e i).mp hl
        cases hall : (e.proposals.set i (some (p.no uid))).all Option.isSome with
        | false =>
          rw [rejectProposal_live_hole e uid i p hp hall] at hr
          injection hr with h1 _
          exact Option.noConfusion h1
        | true =>
          rw [rejectProposal_live_ok e uid i p hp hall] at hr
          injection hr with _ h2
          exact ⟨_, by rw [← h2]⟩
  obtain ⟨L, hL⟩ := key
  intro j p1 hj
  have hmax : maxYes e1 = maxOfList (yesList (markLeaders L)) := by
    unfold maxYes liveYesCounts
    rw [hL]
  rw [hmax]
  apply markLeaders_leading_iff L j p1
  rw [← hL]
  exact hj

/-- C1 witness: the amended statement evaluated after one successful
accept (one vote, so the proposal is not leading and the maximum is
1). -/
theorem c1_witness :
    (evt1.acceptProposal "a" 0 = (none, evtOneVote) ∨
     evt1.rejectProposal "a" 0 = (none, evtOneVote)) ∧
    (({ ts := tsA, accepted := ["a"], leading := false } : Proposal).isLeading = true ↔
      (({ ts := tsA, accepted := ["a"], leading := false } : Proposal).yesCount =
          maxYes evtOneVote ∧ 2 ≤ maxYes evtOneVote)) :=
  ⟨Or.inl (by decide),
    c1_leading_iff_max_yes evt1 "a" 0 evtOneVote (Or.inl (by decide)) 0
      { ts := tsA, accepted := ["a"], leading := false } (by decide)⟩

theorem foldl_jsSetAdd_nodup : ∀ (l acc : List String), (acc ++ l).Nodup →
    l.foldl jsSetAdd acc = acc ++ l := by
  intro l
  induction l with
  | nil => intro acc _; exact (List.append_nil acc).symm
  | cons x l ih =>
    intro acc h
    have hx : x ∉ acc := by
      obtain ⟨-, -, hdisj⟩ := List.nodup_append.mp h
      intro hmem
      exact hdisj hmem (List.mem_cons_self x l)
    show l.foldl jsSetAdd (jsSetAdd acc x) = acc ++ x :: l
    have hadd : jsSetAdd acc x = acc ++ [x] := by unfold jsSetAdd; rw [if_neg hx]
    rw [hadd]
    have h2 : ((acc ++ [x]) ++ l).Nodup := by
      rw [List.append_assoc, List.singleton_append]
      exact h
    rw [ih (acc ++ [x]) h2, List.append_assoc, List.singleton_append]

theorem jsNewSet_id (l : List String) (h : l.Nodup) : jsNewSet l = l := by
  unfold jsNewSet
  have h2 : (([] : List String) ++ l).Nodup := by rw [List.nil_append]; exact h
  rw [foldl_jsSetAdd_nodup l [] h2, List.nil_append]

theorem proposal_roundtrip (p : Proposal) (h : p.accepted.Nodup) :
    Proposal.deserialize (Proposal.serialize p) = { p with leading := false } := by
  unfold Proposal.serialize Proposal.deserialize
  rw [jsNewSet_id _ h]

/-- C4: `Event.deserialize (e.serialize())` rebuilds an event with the
same id, name, invitees, responses and finalized index, and a proposal
array identical slot for slot (holes included): each live slot keeps its
timestamp instant, timezone and accepted set exactly; only the derived
leading flag is reset (it is not part of the snapshot).  JS sets are
duplicate-free, whence the `Nodup` hypotheses. -/
theorem c4_serialize_roundtrip (e : Event)
    (hi : e.invitees.Nodup) (hr : e.responses.Nodup)
    (hp : ∀ o ∈ e.proposals, acceptedNodup o) :
    (Event.deserialize e.serialize).id = e.id ∧
    (Event.deserialize e.serialize).name = e.name ∧
    (Event.deserialize e.serialize).invitees = e.invitees ∧
    (Event.deserialize e.serialize).responses = e.responses ∧
    (Event.deserialize e.serialize).finalized = e.finalized ∧
    (Event.deserialize e.serialize).proposals =
      e.proposals.map (Option.map (fun p => { p with leading := false })) := by
  refine ⟨rfl, rfl, ?_, ?_, rfl, ?_⟩
  · show jsNewSet e.invitees = e.invitees
    exact jsNewSet_id _ hi
  · show jsNewSet e.responses = e.responses
    exact jsNewSet_id _ hr
  · show (e.proposals.map (Option.map Proposal.serialize)).map
        (Option.map Proposal.deserialize) =
      e.proposals.map (Option.map (fun p => { p with leading := false }))
    rw [List.map_map]
    apply List.map_congr_left
    intro o ho
    cases o with
    | none => rfl
    | some p =>
      show some (Proposal.deserialize (Proposal.serialize p)) =
        some { p with leading := false }
      rw [proposal_roundtrip p (hp (some p) ho)]

/-- C4 witness: the round trip evaluated on an event with a hole at
slot 0, a vote at slot 1 and a nonempty roster. -/
theorem c4_witness :
    evtC4.invitees.Nodup ∧ evtC4.responses.Nodup ∧
    (∀ o ∈ evtC4.proposals, acceptedNodup o) ∧
    ((Event.deserialize evtC4.serialize).id = evtC4.id ∧
     (Event.deserialize evtC4.serialize).name = evtC4.name ∧
     (Event.deserialize evtC4.serialize).invitees = evtC4.invitees ∧
     (Event.deserialize evtC4.serialize).responses = evtC4.responses ∧
     (Event.deserialize evtC4.serialize).finalized = evtC4.finalized ∧
     (Event.deserialize evtC4.serialize).proposals =
       evtC4.proposals.map (Option.map (fun p => { p with leading := false }))) :=
  ⟨by decide, by decide, by decide,
    c4_serialize_roundtrip evtC4 (by decide) (by decide) (by decide)⟩

theorem origin_lift (o : Option Proposal) (rest : List (Option Proposal))
    (ind skip j : Nat) (t : Ts)
    (h : ind + 1 ≤ j ∧ j ≠ skip ∧
      ∃ p, rest.get? (j - (ind + 1)) = some (some p) ∧ p.ts = t) :
    ind ≤ j ∧ j ≠ skip ∧
      ∃ p, (o :: rest).get? (j - ind) = some (some p) ∧ p.ts = t := by
  obtain ⟨h1, h2, p, h3, h4⟩ := h
  refine ⟨by omega, h2, p, ?_, h4⟩
  have hj : j - ind = (j - (ind + 1)) + 1 := by omega
  rw [hj]
  exact h3

theorem dlt_true {a b : Nat} (h : a < b) : (decide (a < b)) = true :=
  decide_eq_true h

theorem dlt_false {a b : Nat} (h : b ≤ a) : ¬ ((decide (a < b)) = true) := by
  simp [Nat.not_lt.mpr h]

theorem reduceMinAux_spec (skip : Nat) :
    ∀ (l : List (Option Proposal)) (ind : Nat) (acc : Option (Nat × Ts)),
    (reduceExtAux (fun a b => a < b) l ind skip acc = none →
        acc = none ∧ lMsFrom l ind skip = []) ∧
    (∀ j t, reduceExtAux (fun a b => a < b) l ind skip acc = some (j, t) →
        ((acc = some (j, t) ∨
          (ind ≤ j ∧ j ≠ skip ∧
            ∃ p, l.get? (j - ind) = some (some p) ∧ p.ts = t)) ∧
         (∀ m ∈ lMsFrom l ind skip, t.ms ≤ m) ∧
         (∀ j0 t0, acc = some (j0, t0) → t.ms ≤ t0.ms))) := by
  intro l
  induction l with
  | nil =>
    intro ind acc
    constructor
    · intro h
      exact ⟨h, rfl⟩
    · intro j t h
      refine ⟨Or.inl h, ?_, ?_⟩
      · intro m hm
        exact absurd hm (List.not_mem_nil m)
      · intro j0 t0 h0
        rw [h0] at h
        injection h with h1
        injection h1 with h2 h3
        subst h3
        exact Nat.le_refl _
  | cons o rest ih =>
    intro ind acc
    cases o with
    | none =>
      have hstep : reduceExtAux (fun a b => a < b) (none :: rest) ind skip acc =
          reduceExtAux (fun a b => a < b) rest (ind + 1) skip acc := rfl
      have hscan : lMsFrom (none :: rest) ind skip = lMsFrom rest (ind + 1) skip := rfl
      constructor
      · intro h
        rw [hstep] at h
        obtain ⟨h1, h2⟩ := (ih (ind + 1) acc).1 h
        rw [hscan]
        exact ⟨h1, h2⟩
      · intro j t h
        rw [hstep] at h
        obtain ⟨ho, hmin, hacc⟩ := (ih (ind + 1) acc).2 j t h
        rw [hscan]
        refine ⟨?_, hmin, hacc⟩
        rcases ho with h1 | h1
        · exact Or.inl h1
        · exact Or.inr (origin_lift none rest ind skip j t h1)
    | some p =>
      by_cases hsk : ind = skip
      · have hstep : reduceExtAux (fun a b => a < b) (some p :: rest) ind skip acc =
            reduceExtAux (fun a b => a < b) rest (ind + 1) skip acc := by
          simp only [reduceExtAux]
          rw [if_pos hsk]
        have hscan : lMsFrom (some p :: rest) ind skip =
            lMsFrom rest (ind + 1) skip := by
          show (if ind = skip then lMsFrom rest (ind + 1) skip
            else p.ts.ms :: lMsFrom rest (ind + 1) skip) = _
          rw [if_pos hsk]
        constructor
        · intro h
          rw [hstep] at h
          obtain ⟨h1, h2⟩ := (ih (ind + 1) acc).1 h
          rw [hscan]
          exact ⟨h1, h2⟩
        · intro j t h
          rw [hstep] at h
          obtain ⟨ho, hmin, hacc⟩ := (ih (ind + 1) acc).2 j t h
          rw [hscan]
          refine ⟨?_, hmin, hacc⟩
          rcases ho with h1 | h1
          · exact Or.inl h1
          · exact Or.inr (origin_lift (some p) rest ind skip j t h1)
      · have hscan : lMsFrom (some p :: rest) ind skip =
            p.ts.ms :: lMsFrom rest (ind + 1) skip := by
          show (if ind = skip then lMsFrom rest (ind + 1) skip
            else p.ts.ms :: lMsFrom rest (ind + 1) skip) = _
          rw [if_neg hsk]
        cases acc with
        | none =>
          have hstep : reduceExtAux (fun a b => a < b) (some p :: rest) ind skip none =
              reduceExtAux (fun a b => a < b) rest (ind + 1) skip (some (ind, p.ts)) := by
            simp only [reduceExtAux]
            rw [if_neg hsk]
          constructor
          · intro h
            rw [hstep] at h
            obtain ⟨h1, -⟩ := (ih (ind + 1) (some (ind, p.ts))).1 h
            exact Option.noConfusion h1
          · intro j t h
            rw [hstep] at h
            obtain ⟨ho, hmin, hacc⟩ := (ih (ind + 1) (some (ind, p.ts))).2 j t h
            have hhead : t.ms ≤ p.ts.ms := hacc ind p.ts rfl
            refine ⟨?_, ?_, ?_⟩
            · rcases ho with h1 | h1
              · injection h1 with h2
                injection h2 with h3 h4
                subst h3
                subst h4
                refine Or.inr ⟨Nat.le_refl _, hsk, p, ?_, rfl⟩
                rw [Nat.sub_self]
                rfl
              · exact Or.inr (origin_lift (some p) rest ind skip j t h1)
            · intro m hm
              rw [hscan] at hm
              rcases List.mem_cons.mp hm with h1 | h1
              · rw [h1]; exact hhead
              · exact hmin m h1
            · intro j0 t0 h0
              exact Option.noConfusion h0
        | some pr =>
          obtain ⟨j0, t0⟩ := pr
          rcases Nat.lt_or_ge p.ts.ms t0.ms with hcmp | hcmp
          · have hstep : reduceExtAux (fun a b => a < b) (some p :: rest) ind skip
                (some (j0, t0)) =
                reduceExtAux (fun a b => a < b) rest (ind + 1) skip
                  (some (ind, p.ts)) := by
              simp only [reduceExtAux]
              rw [if_neg hsk, if_pos (dlt_true hcmp)]
            constructor
            · intro h
              rw [hstep] at h
              obtain ⟨h1, -⟩ := (ih (ind + 1) (some (ind, p.ts))).1 h
              exact Option.noConfusion h1
            · intro j t h
              rw [hstep] at h
              obtain ⟨ho, hmin, hacc⟩ := (ih (ind + 1) (some (ind, p.ts))).2 j t h
              have hhead : t.ms ≤ p.ts.ms := hacc ind p.ts rfl
              refine ⟨?_, ?_, ?_⟩
              · rcases ho with h1 | h1
                · injection h1 with h2
                  injection h2 with h3 h4
                  subst h3
                  subst h4
                  refine Or.inr ⟨Nat.le_refl _, hsk, p, ?_, rfl⟩
                  rw [Nat.sub_self]
                  rfl
                · exact Or.inr (origin_lift (some p) rest ind skip j t h1)
              · intro m hm
                rw [hscan] at hm
                rcases List.mem_cons.mp hm with h1 | h1
                · rw [h1]; exact hhead
                · exact hmin m h1
              · intro j1 t1 h1
                injection h1 with h2
                injection h2 with h3 h4
                subst h4
                exact Nat.le_of_lt (Nat.lt_of_le_of_lt hhead hcmp)
          · have hstep : reduceExtAux (fun a b => a < b) (some p :: rest) ind skip
                (some (j0, t0)) =
                reduceExtAux (fun a b => a < b) rest (ind + 1) skip
                  (some (j0, t0)) := by
              simp only [reduceExtAux]
              rw [if_neg hsk, if_neg (dlt_false hcmp)]
            constructor
            · intro h
              rw [hstep] at h
              obtain ⟨h1, -⟩ := (ih (ind + 1) (some (j0, t0))).1 h
              exact Option.noConfusion h1
            · intro j t h
              rw [hstep] at h
              obtain ⟨ho, hmin, hacc⟩ := (ih (ind + 1) (some (j0, t0))).2 j t h
              have hbound : t.ms ≤ t0.ms := hacc j0 t0 rfl
              refine ⟨?_, ?_, ?_⟩
              · rcases ho with h1 | h1
                · exact Or.inl h1
                · exact Or.inr (origin_lift (some p) rest ind skip j t h1)
              · intro m hm
                rw [hscan] at hm
                rcases List.mem_cons.mp hm with h1 | h1
                · rw [h1]; exact Nat.le_trans hbound hcmp
                · exact hmin m h1
              · intro j1 t1 h1
                injection h1 with h2
                injection h2 with h3 h4
                subst h4
                exact hbound

theorem dgt_true {a b : Nat} (h : b < a) : (decide (a > b)) = true :=
  decide_eq_true h

theorem dgt_false {a b : Nat} (h : a ≤ b) : ¬ ((decide (a > b)) = true) := by
  simp [Nat.not_lt.mpr h]

theorem reduceMaxAux_spec (skip : Nat) :
    ∀ (l : List (Option Proposal)) (ind : Nat) (acc : Option (Nat × Ts)),
    (reduceExtAux (fun a b => a > b) l ind skip acc = none →
        acc = none ∧ lMsFrom l ind skip = []) ∧
    (∀ j t, reduceExtAux (fun a b => a > b) l ind skip acc = some (j, t) →
        ((acc = some (j, t) ∨
          (ind ≤ j ∧ j ≠ skip ∧
            ∃ p, l.get? (j - ind) = some (some p) ∧ p.ts = t)) ∧
         (∀ m ∈ lMsFrom l ind skip, m ≤ t.ms) ∧
         (∀ j0 t0, acc = some (j0, t0) → t0.ms ≤ t.ms))) := by
  intro l
  induction l with
  | nil =>
    intro ind acc
    constructor
    · intro h
      exact ⟨h, rfl⟩
    · intro j t h
      refine ⟨Or.inl h, ?_, ?_⟩
      · intro m hm
        exact absurd hm (List.not_mem_nil m)
      · intro j0 t0 h0
        rw [h0] at h
        injection h with h1
        injection h1 with h2 h3
        subst h3
        exact Nat.le_refl _
  | cons o rest ih =>
    intro ind acc
    cases o with
    | none =>
      have hstep : reduceExtAux (fun a b => a > b) (none :: rest) ind skip acc =
          reduceExtAux (fun a b => a > b) rest (ind + 1) skip acc := rfl
      have hscan : lMsFrom (none :: rest) ind skip = lMsFrom rest (ind + 1) skip := rfl
      constructor
      · intro h
        rw [hstep] at h
        obtain ⟨h1, h2⟩ := (ih (ind + 1) acc).1 h
        rw [hscan]
        exact ⟨h1, h2⟩
      · intro j t h
        rw [hstep] at h
        obtain ⟨ho, hmin, hacc⟩ := (ih (ind + 1) acc).2 j t h
        rw [hscan]
        refine ⟨?_, hmin, hacc⟩
        rcases ho with h1 | h1
        · exact Or.inl h1
        · exact Or.inr (origin_lift none rest ind skip j t h1)
    | some p =>
      by_cases hsk : ind = skip
      · have hstep : reduceExtAux (fun a b => a > b) (some p :: rest) ind skip acc =
            reduceExtAux (fun a b => a > b) rest (ind + 1) skip acc := by
          simp only [reduceExtAux]
          rw [if_pos hsk]
        have hscan : lMsFrom (some p :: rest) ind skip =
            lMsFrom rest (ind + 1) skip := by
          show (if ind = skip then lMsFrom rest (ind + 1) skip
            else p.ts.ms :: lMsFrom rest (ind + 1) skip) = _
          rw [if_pos hsk]
        constructor
        · intro h
          rw [hstep] at h
          obtain ⟨h1, h2⟩ := (ih (ind + 1) acc).1 h
          rw [hscan]
          exact ⟨h1, h2⟩
        · intro j t h
          rw [hstep] at h
          obtain ⟨ho, hmin, hacc⟩ := (ih (ind + 1) acc).2 j t h
          rw [hscan]
          refine ⟨?_, hmin, hacc⟩
          rcases ho with h1 | h1
          · exact Or.inl h1
          · exact Or.inr (origin_lift (some p) rest ind skip j t h1)
      · have hscan : lMsFrom (some p :: rest) ind skip =
            p.ts.ms :: lMsFrom rest (ind + 1) skip := by
          show (if ind = skip then lMsFrom rest (ind + 1) skip
            else p.ts.ms :: lMsFrom rest (ind + 1) skip) = _
          rw [if_neg hsk]
        cases acc with
        | none =>
          have hstep : reduceExtAux (fun a b => a > b) (some p :: rest) ind skip none =
              reduceExtAux (fun a b => a > b) rest (ind + 1) skip (some (ind, p.ts)) := by
            simp only [reduceExtAux]
            rw [if_neg hsk]
          constructor
          · intro h
            rw [hstep] at h
            obtain ⟨h1, -⟩ := (ih (ind + 1) (some (ind, p.ts))).1 h
            exact Option.noConfusion h1
          · intro j t h
            rw [hstep] at h
            obtain ⟨ho, hmin, hacc⟩ := (ih (ind + 1) (some (ind, p.ts))).2 j t h
            have hhead : p.ts.ms ≤ t.ms := hacc ind p.ts rfl
            refine ⟨?_, ?_, ?_⟩
            · rcases ho with h1 | h1
              · injection h1 with h2
                injection h2 with h3 h4
                subst h3
                subst h4
                refine Or.inr ⟨Nat.le_refl _, hsk, p, ?_, rfl⟩
                rw [Nat.sub_self]
                rfl
              · exact Or.inr (origin_lift (some p) rest ind skip j t h1)
            · intro m hm
              rw [hscan] at hm
              rcases List.mem_cons.mp hm with h1 | h1
              · rw [h1]; exact hhead
              · exact hmin m h1
            · intro j0 t0 h0
              exact Option.noConfusion h0
        | some pr =>
          obtain ⟨j0, t0⟩ := pr
          rcases Nat.lt_or_ge t0.ms p.ts.ms with hcmp | hcmp
          · have hstep : reduceExtAux (fun a b => a > b) (some p :: rest) ind skip
                (some (j0, t0)) =
                reduceExtAux (fun a b => a > b) rest (ind + 1) skip
                  (some (ind, p.ts)) := by
              simp only [reduceExtAux]
              rw [if_neg hsk, if_pos (dgt_true hcmp)]
            constructor
            · intro h
              rw [hstep] at h
              obtain ⟨h1, -⟩ := (ih (ind + 1) (some (ind, p.ts))).1 h
              exact Option.noConfusion h1
            · intro j t h
              rw [hstep] at h
              obtain ⟨ho, hmin, hacc⟩ := (ih (ind + 1) (some (ind, p.ts))).2 j t h
              have hhead : p.ts.ms ≤ t.ms := hacc ind p.ts rfl
              refine ⟨?_, ?_, ?_⟩
              · rcases ho with h1 | h1
                · injection h1 with h2
                  injection h2 with h3 h4
                  subst h3
                  subst h4
                  refine Or.inr ⟨Nat.le_refl _, hsk, p, ?_, rfl⟩
                  rw [Nat.sub_self]
                  rfl
                · exact Or.inr (origin_lift (some p) rest ind skip j t h1)
              · intro m hm
                rw [hscan] at hm
                rcases List.mem_cons.mp hm with h1 | h1
                · rw [h1]; exact hhead
                · exact hmin m h1
              · intro j1 t1 h1
                injection h1 with h2
                injection h2 with h3 h4
                subst h4
                exact Nat.le_of_lt (Nat.lt_of_lt_of_le hcmp hhead)
          · have hstep : reduceExtAux (fun a b => a > b) (some p :: rest) ind skip
                (some (j0, t0)) =
                reduceExtAux (fun a b => a > b) rest (ind + 1) skip
                  (some (j0, t0)) := by
              simp only [reduceExtAux]
              rw [if_neg hsk, if_neg (dgt_false hcmp)]
            constructor
            · intro h
              rw [hstep] at h
              obtain ⟨h1, -⟩ := (ih (ind + 1) (some (j0, t0))).1 h
              exact Option.noConfusion h1
            · intro j t h
              rw [hstep] at h
              obtain ⟨ho, hmin, hacc⟩ := (ih (ind + 1) (some (j0, t0))).2 j t h
              have hbound : t0.ms ≤ t.ms := hacc j0 t0 rfl
              refine ⟨?_, ?_, ?_⟩
              · rcases ho with h1 | h1
                · exact Or.inl h1
                · exact Or.inr (origin_lift (some p) rest ind skip j t h1)
              · intro m hm
                rw [hscan] at hm
                rcases List.mem_cons.mp hm with h1 | h1
                · rw [h1]; exact Nat.le_trans hcmp hbound
                · exact hmin m h1
              · intro j1 t1 h1
                injection h1 with h2
                injection h2 with h3 h4
                subst h4
                exact hbound

theorem lMsFrom_high : ∀ (l : List (Option Proposal)) (ind skip : Nat),
    skip < ind → lMsFrom l ind skip = lMs l := by
  intro l
  induction l with
  | nil => intro ind skip _; rfl
  | cons o rest ih =>
    intro ind skip h
    cases o with
    | none =>
      show lMsFrom rest (ind + 1) skip = lMs (none :: rest)
      rw [ih (ind + 1) skip (by omega)]
      rfl
    | some p =>
      show (if ind = skip then lMsFrom rest (ind + 1) skip
        else p.ts.ms :: lMsFrom rest (ind + 1) skip) = lMs (some p :: rest)
      rw [if_neg (by omega), ih (ind + 1) skip (by omega)]
      rfl

theorem lMsFrom_shift : ∀ (l : List (Option Proposal)) (ind skip : Nat),
    lMsFrom l (ind + 1) (skip + 1) = lMsFrom l ind skip := by
  intro l
  induction l with
  | nil => intro ind skip; rfl
  | cons o rest ih =>
    intro ind skip
    cases o with
    | none =>
      show lMsFrom rest (ind + 1 + 1) (skip + 1) = lMsFrom rest (ind + 1) skip
      exact ih (ind + 1) skip
    | some p =>
      show (if ind + 1 = skip + 1 then lMsFrom rest (ind + 1 + 1) (skip + 1)
          else p.ts.ms :: lMsFrom rest (ind + 1 + 1) (skip + 1)) =
        (if ind = skip then lMsFrom rest (ind + 1) skip
          else p.ts.ms :: lMsFrom rest (ind + 1) skip)
      rw [ih (ind + 1) skip]
      by_cases h : ind = skip
      · rw [if_pos (by omega), if_pos h]
      · rw [if_neg (by omega), if_neg h]

theorem lMs_set_none : ∀ (l : List (Option Proposal)) (skip : Nat),
    lMs (l.set skip none) = lMsFrom l 0 skip := by
  intro l
  induction l with
  | nil => intro skip; rfl
  | cons o rest ih =>
    intro skip
    cases skip with
    | zero =>
      show lMs (none :: rest) = lMsFrom (o :: rest) 0 0
      cases o with
      | none =>
        show lMs rest = lMsFrom rest 1 0
        rw [lMsFrom_high rest 1 0 (by omega)]
      | some p =>
        show lMs rest = (if 0 = 0 then lMsFrom rest 1 0 else _)
        rw [if_pos rfl, lMsFrom_high rest 1 0 (by omega)]
    | succ k =>
      show lMs (o :: rest.set k none) = lMsFrom (o :: rest) 0 (k + 1)
      cases o with
      | none =>
        show lMs (rest.set k none) = lMsFrom rest 1 (k + 1)
        rw [show (1 : Nat) = 0 + 1 from rfl, lMsFrom_shift rest 0 k]
        exact ih k
      | some p =>
        show p.ts.ms :: lMs (rest.set k none) =
          (if 0 = k + 1 then lMsFrom rest 1 (k + 1)
            else p.ts.ms :: lMsFrom rest 1 (k + 1))
        rw [if_neg (by omega), show (1 : Nat) = 0 + 1 from rfl,
          lMsFrom_shift rest 0 k, ih k]

theorem lMsFrom_subset : ∀ (l : List (Option Proposal)) (ind skip m : Nat),
    m ∈ lMsFrom l ind skip → m ∈ lMs l := by
  intro l
  induction l with
  | nil => intro ind skip m h; exact absurd h (List.not_mem_nil m)
  | cons o rest ih =>
    intro ind skip m h
    cases o with
    | none =>
      show m ∈ lMs rest
      exact ih (ind + 1) skip m h
    | some p =>
      show m ∈ p.ts.ms :: lMs rest
      by_cases hsk : ind = skip
      · rw [show lMsFrom (some p :: rest) ind skip = lMsFrom rest (ind + 1) skip
          from by
            show (if ind = skip then _ else _) = _
            rw [if_pos hsk]] at h
        exact List.mem_cons_of_mem _ (ih (ind + 1) skip m h)
      · rw [show lMsFrom (some p :: rest) ind skip =
            p.ts.ms :: lMsFrom rest (ind + 1) skip from by
            show (if ind = skip then _ else _) = _
            rw [if_neg hsk]] at h
        rcases List.mem_cons.mp h with h1 | h1
        · rw [h1]; exact List.mem_cons_self _ _
        · exact List.mem_cons_of_mem _ (ih (ind + 1) skip m h1)

theorem jsReduceMin_spec (l : List (Option Proposal)) (skip : Nat) :
    (jsReduceMin l skip = none → lMs (l.set skip none) = []) ∧
    (∀ j t, jsReduceMin l skip = some (j, t) →
      (∃ p, (l.set skip none).get? j = some (some p) ∧ p.ts = t) ∧
      ∀ m ∈ lMs (l.set skip none), t.ms ≤ m) := by
  constructor
  · intro h
    obtain ⟨-, h2⟩ := (reduceMinAux_spec skip l 0 none).1 h
    rw [lMs_set_none l skip]
    exact h2
  · intro j t h
    obtain ⟨ho, hmin, -⟩ := (reduceMinAux_spec skip l 0 none).2 j t h
    rcases ho with h1 | h1
    · exact Option.noConfusion h1
    · obtain ⟨-, hne, p, hget, hts⟩ := h1
      refine ⟨⟨p, ?_, hts⟩, ?_⟩
      · rw [List.get?_set_ne _ _ (fun hh => hne hh.symm)]
        rw [show j - 0 = j from rfl] at hget
        exact hget
      · intro m hm
        rw [lMs_set_none l skip] at hm
        exact hmin m hm

theorem jsReduceMax_spec (l : List (Option Proposal)) (skip : Nat) :
    (jsReduceMax l skip = none → lMs (l.set skip none) = []) ∧
    (∀ j t, jsReduceMax l skip = some (j, t) →
      (∃ p, (l.set skip none).get? j = some (some p) ∧ p.ts = t) ∧
      ∀ m ∈ lMs (l.set skip none), m ≤ t.ms) := by
  constructor
  · intro h
    obtain ⟨-, h2⟩ := (reduceMaxAux_spec skip l 0 none).1 h
    rw [lMs_set_none l skip]
    exact h2
  · intro j t h
    obtain ⟨ho, hmin, -⟩ := (reduceMaxAux_spec skip l 0 none).2 j t h
    rcases ho with h1 | h1
    · exact Option.noConfusion h1
    · obtain ⟨-, hne, p, hget, hts⟩ := h1
      refine ⟨⟨p, ?_, hts⟩, ?_⟩
      · rw [List.get?_set_ne _ _ (fun hh => hne hh.symm)]
        rw [show j - 0 = j from rfl] at hget
        exact hget
      · intro m hm
        rw [lMs_set_none l skip] at hm
        exact hmin m hm

theorem proposeDate_ok_full (e : Event) (ts : Ts) (e1 : Event) (r : Nat)
    (h : e.proposeDate ts = Except.ok (e1, r)) :
    e1 = { e with proposals := e.proposals ++ [some (Proposal.mk0 ts)],
                  earliest := pushEarliest e.earliest e.proposals.length ts,
                  latest := pushLatest e.latest e.proposals.length ts } := by
  unfold Event.proposeDate at h
  cases hfin : e.isFinalized with
  | true => rw [hfin] at h; simp at h
  | false =>
    rw [hfin] at h
    simp only [Bool.false_eq_true, if_false] at h
    injection h with h1
    injection h1 with h2 h3
    exact h2.symm

theorem lMs_push (l : List (Option Proposal)) (ts : Ts) :
    lMs (l ++ [some (Proposal.mk0 ts)]) = lMs l ++ [ts.ms] := by
  unfold lMs
  rw [List.filterMap_append]
  rfl

theorem get?_lt_length {l : List (Option Proposal)} {j : Nat} {o : Option Proposal}
    (h : l.get? j = some o) : j < l.length := by
  obtain ⟨hl, -⟩ := List.get?_eq_some.mp h
  exact hl

theorem minCacheOk_push (l : List (Option Proposal)) (c : Option (Nat × Ts)) (ts : Ts)
    (h : minCacheOk l c) :
    minCacheOk (l ++ [some (Proposal.mk0 ts)]) (pushEarliest c l.length ts) := by
  cases c with
  | none =>
    have hnil : lMs l = [] := h
    show minCacheOk _ (some (l.length, ts))
    refine ⟨⟨Proposal.mk0 ts, ?_, rfl⟩, ?_⟩
    · exact List.get?_concat_length l _
    · intro m hm
      rw [lMs_push, hnil, List.nil_append] at hm
      rcases List.mem_singleton.mp hm with h1
      rw [h1]
  | some pr =>
    obtain ⟨j, t⟩ := pr
    obtain ⟨⟨p, hget, hts⟩, hmin⟩ := h
    show minCacheOk _ (if ts.ms < t.ms then some (l.length, ts) else some (j, t))
    by_cases hc : ts.ms < t.ms
    · rw [if_pos hc]
      refine ⟨⟨Proposal.mk0 ts, List.get?_concat_length l _, rfl⟩, ?_⟩
      intro m hm
      rw [lMs_push] at hm
      rcases List.mem_append.mp hm with h1 | h1
      · exact Nat.le_trans (Nat.le_of_lt hc) (hmin m h1)
      · rw [List.mem_singleton.mp h1]
    · rw [if_neg hc]
      refine ⟨⟨p, ?_, hts⟩, ?_⟩
      · rw [List.get?_append (get?_lt_length hget)]
        exact hget
      · intro m hm
        rw [lMs_push] at hm
        rcases List.mem_append.mp hm with h1 | h1
        · exact hmin m h1
        · rw [List.mem_singleton.mp h1]
          exact Nat.le_of_not_lt hc

theorem maxCacheOk_push (l : List (Option Proposal)) (c : Option (Nat × Ts)) (ts : Ts)
    (h : maxCacheOk l c) :
    maxCacheOk (l ++ [some (Proposal.mk0 ts)]) (pushLatest c l.length ts) := by
  cases c with
  | none =>
    have hnil : lMs l = [] := h
    show maxCacheOk _ (some (l.length, ts))
    refine ⟨⟨Proposal.mk0 ts, ?_, rfl⟩, ?_⟩
    · exact List.get?_concat_length l _
    · intro m hm
      rw [lMs_push, hnil, List.nil_append] at hm
      rcases List.mem_singleton.mp hm with h1
      rw [h1]
  | some pr =>
    obtain ⟨j, t⟩ := pr
    obtain ⟨⟨p, hget, hts⟩, hmax⟩ := h
    show maxCacheOk _ (if ts.ms > t.ms then some (l.length, ts) else some (j, t))
    by_cases hc : ts.ms > t.ms
    · rw [if_pos hc]
      refine ⟨⟨Proposal.mk0 ts, List.get?_concat_length l _, rfl⟩, ?_⟩
      intro m hm
      rw [lMs_push] at hm
      rcases List.mem_append.mp hm with h1 | h1
      · exact Nat.le_trans (hmax m h1) (Nat.le_of_lt hc)
      · rw [List.mem_singleton.mp h1]
    · rw [if_neg hc]
      refine ⟨⟨p, ?_, hts⟩, ?_⟩
      · rw [List.get?_append (get?_lt_length hget)]
        exact hget
      · intro m hm
        rw [lMs_push] at hm
        rcases List.mem_append.mp hm with h1 | h1
        · exact hmax m h1
        · rw [List.mem_singleton.mp h1]
          exact Nat.le_of_not_lt hc

theorem cachesOk_propose (e : Event) (ts : Ts) (e1 : Event) (r : Nat)
    (hc : cachesOk e) (h : e.proposeDate ts = Except.ok (e1, r)) :
    cachesOk e1 := by
  obtain ⟨h1, h2⟩ := hc
  rw [proposeDate_ok_full e ts e1 r h]
  exact ⟨minCacheOk_push e.proposals e.earliest ts h1,
    maxCacheOk_push e.proposals e.latest ts h2⟩

theorem lMs_set_mem_mono (l : List (Option Proposal)) (i m : Nat)
    (h : m ∈ lMs (l.set i none)) : m ∈ lMs l := by
  rw [lMs_set_none l i] at h
  exact lMsFrom_subset l 0 i m h

theorem cachesOk_unpropose (e : Event) (i : Nat) (hc : cachesOk e) :
    cachesOk (e.unpropose i) := by
  obtain ⟨h1, h2⟩ := hc
  constructor
  · show minCacheOk (e.proposals.set i none)
      (if Event.cacheHits e.earliest e i then jsReduceMin e.proposals i
       else e.earliest)
    cases hgb : Event.cacheHits e.earliest e i with
    | true =>
      rw [if_pos rfl]
      cases hr : jsReduceMin e.proposals i with
      | none =>
        show lMs (e.proposals.set i none) = []
        exact (jsReduceMin_spec e.proposals i).1 hr
      | some pr =>
        obtain ⟨j, t⟩ := pr
        obtain ⟨hslot, hmin⟩ := (jsReduceMin_spec e.proposals i).2 j t hr
        exact ⟨hslot, hmin⟩
    | false =>
      rw [if_neg Bool.false_ne_true]
      cases hE : e.earliest with
      | none =>
        rw [hE] at h1
        have hnil : lMs e.proposals = [] := h1
        show lMs (e.proposals.set i none) = []
        refine List.eq_nil_iff_forall_not_mem.mpr ?_
        intro m hm
        have := lMs_set_mem_mono e.proposals i m hm
        rw [hnil] at this
        exact absurd this (List.not_mem_nil m)
      | some pr =>
        obtain ⟨j, t⟩ := pr
        rw [hE] at h1 hgb
        obtain ⟨⟨p, hget, hts⟩, hmin⟩ := h1
        by_cases hji : j = i
        · exfalso
          subst hji
          unfold Event.cacheHits at hgb
          have hlive : e.slotLive j = true := (slotLive_iff e j).mpr ⟨p, hget⟩
          rw [hlive] at hgb
          simp at hgb
        · refine ⟨⟨p, ?_, hts⟩, ?_⟩
          · rw [List.get?_set_ne _ _ (fun hh => hji hh.symm)]
            exact hget
          · intro m hm
            exact hmin m (lMs_set_mem_mono e.proposals i m hm)
  · show maxCacheOk (e.proposals.set i none)
      (if Event.cacheHits e.latest e i then jsReduceMax e.proposals i
       else e.latest)
    cases hgb : Event.cacheHits e.latest e i with
    | true =>
      rw [if_pos rfl]
      cases hr : jsReduceMax e.proposals i with
      | none =>
        show lMs (e.proposals.set i none) = []
        exact (jsReduceMax_spec e.proposals i).1 hr
      | some pr =>
        obtain ⟨j, t⟩ := pr
        obtain ⟨hslot, hmax⟩ := (jsReduceMax_spec e.proposals i).2 j t hr
        exact ⟨hslot, hmax⟩
    | false =>
      rw [if_neg Bool.false_ne_true]
      cases hE : e.latest with
      | none =>
        rw [hE] at h2
        have hnil : lMs e.proposals = [] := h2
        show lMs (e.proposals.set i none) = []
        refine List.eq_nil_iff_forall_not_mem.mpr ?_
        intro m hm
        have := lMs_set_mem_mono e.proposals i m hm
        rw [hnil] at this
        exact absurd this (List.not_mem_nil m)
      | some pr =>
        obtain ⟨j, t⟩ := pr
        rw [hE] at h2 hgb
        obtain ⟨⟨p, hget, hts⟩, hmax⟩ := h2
        by_cases hji : j = i
        · exfalso
          subst hji
          unfold Event.cacheHits at hgb
          have hlive : e.slotLive j = true := (slotLive_iff e j).mpr ⟨p, hget⟩
          rw [hlive] at hgb
          simp at hgb
        · refine ⟨⟨p, ?_, hts⟩, ?_⟩
          · rw [List.get?_set_ne _ _ (fun hh => hji hh.symm)]
            exact hget
          · intro m hm
            exact hmax m (lMs_set_mem_mono e.proposals i m hm)

theorem cachesOk_mk0 (id name : String) : cachesOk (Event.mk0 id name) :=
  ⟨rfl, rfl⟩

theorem cachesOk_applyPU (e : Event) (op : PUOp) (hc : cachesOk e) :
    cachesOk (applyPU e op) := by
  cases op with
  | propose ts =>
    dsimp only [applyPU]
    cases hr : e.proposeDate ts with
    | error err => exact hc
    | ok pr =>
      obtain ⟨e1, r⟩ := pr
      exact cachesOk_propose e ts e1 r hc hr
  | unpropose i => exact cachesOk_unpropose e i hc

theorem cachesOk_runPU : ∀ (ops : List PUOp) (e : Event), cachesOk e →
    cachesOk (runPU e ops) := by
  intro ops
  induction ops with
  | nil => intro e hc; exact hc
  | cons op rest ih =>
    intro e hc
    exact ih (applyPU e op) (cachesOk_applyPU e op hc)

theorem runPU_unfinalized : ∀ (ops : List PUOp) (e : Event),
    e.finalized = none → (runPU e ops).finalized = none := by
  intro ops
  induction ops with
  | nil => intro e h; exact h
  | cons op rest ih =>
    intro e h
    apply ih
    cases op with
    | propose ts =>
      dsimp only [applyPU]
      cases hr : e.proposeDate ts with
      | error err => exact h
      | ok pr =>
        obtain ⟨e1, r⟩ := pr
        rw [proposeDate_ok_full e ts e1 r hr]
        exact h
    | unpropose i =>
      show (if e.finalized = some i then none else e.finalized) = none
      rw [h]
      simp

theorem ecd_unfinalized (e : Event) (h : e.finalized = none) :
    e.earliestComparisonDate = Except.ok (e.earliest.map Prod.snd) := by
  unfold Event.earliestComparisonDate
  have hf : e.isFinalized = false := by unfold Event.isFinalized; rw [h]; rfl
  rw [hf]
  simp

theorem lcd_unfinalized (e : Event) (h : e.finalized = none) :
    e.latestComparisonDate = Except.ok (e.latest.map Prod.snd) := by
  unfold Event.latestComparisonDate
  have hf : e.isFinalized = false := by unfold Event.isFinalized; rw [h]; rfl
  rw [hf]
  simp

theorem ecd_finalized (e : Event) (i : Nat) (p : Proposal)
    (hf : e.finalized = some i) (hp : e.proposals.get? i = some (some p)) :
    e.earliestComparisonDate = Except.ok (some p.ts) := by
  have hfp : e.finalProposal = Except.ok p := by
    unfold Event.finalProposal
    rw [hf]
    exact (proposal_ok_iff e i p).mpr hp
  unfold Event.earliestComparisonDate
  have hb : e.isFinalized = true := by unfold Event.isFinalized; rw [hf]; rfl
  rw [hb, if_pos rfl, hfp]

theorem lcd_finalized (e : Event) (i : Nat) (p : Proposal)
    (hf : e.finalized = some i) (hp : e.proposals.get? i = some (some p)) :
    e.latestComparisonDate = Except.ok (some p.ts) := by
  have hfp : e.finalProposal = Except.ok p := by
    unfold Event.finalProposal
    rw [hf]
    exact (proposal_ok_iff e i p).mpr hp
  unfold Event.latestComparisonDate
  have hb : e.isFinalized = true := by unfold Event.isFinalized; rw [hf]; rfl
  rw [hb, if_pos rfl, hfp]

/-- C5: starting from a fresh event, after any interleaved sequence of
`proposeDate`/`unpropose` calls the comparison dates are exact: they are
absent iff no live proposal remains, and otherwise
`earliestComparisonDate()` (resp. `latestComparisonDate()`) is the
timestamp of a live proposal that is a true minimum (resp. maximum) of
the live instants; and on any event whose finalized index references a
live proposal, both comparison dates are that proposal's timestamp. -/
theorem c5_comparison_dates_exact (id name : String) (ops : List PUOp)
    (e2 : Event) (i : Nat) (p : Proposal)
    (hf : e2.finalized = some i) (hp : e2.proposals.get? i = some (some p)) :
    (liveMs (runPU (Event.mk0 id name) ops) = [] ↔
      (runPU (Event.mk0 id name) ops).earliestComparisonDate = Except.ok none) ∧
    (∀ t, (runPU (Event.mk0 id name) ops).earliestComparisonDate =
        Except.ok (some t) →
      t.ms ∈ liveMs (runPU (Event.mk0 id name) ops) ∧
      ∀ m ∈ liveMs (runPU (Event.mk0 id name) ops), t.ms ≤ m) ∧
    (liveMs (runPU (Event.mk0 id name) ops) = [] ↔
      (runPU (Event.mk0 id name) ops).latestComparisonDate = Except.ok none) ∧
    (∀ t, (runPU (Event.mk0 id name) ops).latestComparisonDate =
        Except.ok (some t) →
      t.ms ∈ liveMs (runPU (Event.mk0 id name) ops) ∧
      ∀ m ∈ liveMs (runPU (Event.mk0 id name) ops), m ≤ t.ms) ∧
    e2.earliestComparisonDate = Except.ok (some p.ts) ∧
    e2.latestComparisonDate = Except.ok (some p.ts) := by
  obtain ⟨hmin, hmax⟩ := cachesOk_runPU ops (Event.mk0 id name) (cachesOk_mk0 id name)
  have hunf := runPU_unfinalized ops (Event.mk0 id name) rfl
  have hecd := ecd_unfinalized _ hunf
  have hlcd := lcd_unfinalized _ hunf
  refine ⟨?_, ?_, ?_, ?_, ecd_finalized e2 i p hf hp, lcd_finalized e2 i p hf hp⟩
  · cases hE : (runPU (Event.mk0 id name) ops).earliest with
    | none =>
      rw [hE] at hecd hmin
      constructor
      · intro _; rw [hecd]; rfl
      · intro _; exact hmin
    | some pr =>
      obtain ⟨j, t⟩ := pr
      rw [hE] at hecd hmin
      obtain ⟨⟨q, hget, hts⟩, -⟩ := hmin
      have hmem : t.ms ∈ liveMs (runPU (Event.mk0 id name) ops) :=
        List.mem_filterMap.mpr ⟨some q, List.get?_mem hget, by rw [← hts]; rfl⟩
      constructor
      · intro hnil
        rw [hnil] at hmem
        exact absurd hmem (List.not_mem_nil _)
      · intro hok
        rw [hecd] at hok
        injection hok with h1
        exact Option.noConfusion h1
  · intro t1 hok
    cases hE : (runPU (Event.mk0 id name) ops).earliest with
    | none =>
      rw [hE] at hecd
      rw [hecd] at hok
      injection hok with h1
      exact Option.noConfusion h1
    | some pr =>
      obtain ⟨j, t⟩ := pr
      rw [hE] at hecd hmin
      rw [hecd] at hok
      injection hok with h1
      injection h1 with h2
      subst h2
      obtain ⟨⟨q, hget, hts⟩, hmin2⟩ := hmin
      refine ⟨List.mem_filterMap.mpr ⟨some q, List.get?_mem hget, by rw [← hts]; rfl⟩, ?_⟩
      intro m hm
      exact hmin2 m hm
  · cases hE : (runPU (Event.mk0 id name) ops).latest with
    | none =>
      rw [hE] at hlcd hmax
      constructor
      · intro _; rw [hlcd]; rfl
      · intro _; exact hmax
    | some pr =>
      obtain ⟨j, t⟩ := pr
      rw [hE] at hlcd hmax
      obtain ⟨⟨q, hget, hts⟩, -⟩ := hmax
      have hmem : t.ms ∈ liveMs (runPU (Event.mk0 id name) ops) :=
        List.mem_filterMap.mpr ⟨some q, List.get?_mem hget, by rw [← hts]; rfl⟩
      constructor
      · intro hnil
        rw [hnil] at hmem
        exact absurd hmem (List.not_mem_nil _)
      · intro hok
        rw [hlcd] at hok
        injection hok with h1
        exact Option.noConfusion h1
  · intro t1 hok
    cases hE : (runPU (Event.mk0 id name) ops).latest with
    | none =>
      rw [hE] at hlcd
      rw [hlcd] at hok
      injection hok with h1
      exact Option.noConfusion h1
    | some pr =>
      obtain ⟨j, t⟩ := pr
      rw [hE] at hlcd hmax
      rw [hlcd] at hok
      injection hok with h1
      injection h1 with h2
      subst h2
      obtain ⟨⟨q, hget, hts⟩, hmax2⟩ := hmax
      refine ⟨List.mem_filterMap.mpr ⟨some q, List.get?_mem hget, by rw [← hts]; rfl⟩, ?_⟩
      intro m hm
      exact hmax2 m hm

/-- C5 witness: the statement evaluated on the run
propose(100), propose(50), unpropose(0) and on the finalized event
`evtFin`. -/
theorem c5_witness :
    evtFin.finalized = some 0 ∧
    evtFin.proposals.get? 0 = some (some (Proposal.mk0 tsA)) ∧
    ((liveMs (runPU (Event.mk0 "X" "Y") opsC5) = [] ↔
       (runPU (Event.mk0 "X" "Y") opsC5).earliestComparisonDate = Except.ok none) ∧
     (∀ t, (runPU (Event.mk0 "X" "Y") opsC5).earliestComparisonDate =
         Except.ok (some t) →
       t.ms ∈ liveMs (runPU (Event.mk0 "X" "Y") opsC5) ∧
       ∀ m ∈ liveMs (runPU (Event.mk0 "X" "Y") opsC5), t.ms ≤ m) ∧
     (liveMs (runPU (Event.mk0 "X" "Y") opsC5) = [] ↔
       (runPU (Event.mk0 "X" "Y") opsC5).latestComparisonDate = Except.ok none) ∧
     (∀ t, (runPU (Event.mk0 "X" "Y") opsC5).latestComparisonDate =
         Except.ok (some t) →
       t.ms ∈ liveMs (runPU (Event.mk0 "X" "Y") opsC5) ∧
       ∀ m ∈ liveMs (runPU (Event.mk0 "X" "Y") opsC5), m ≤ t.ms) ∧
     evtFin.earliestComparisonDate = Except.ok (some (Proposal.mk0 tsA).ts) ∧
     evtFin.latestComparisonDate = Except.ok (some (Proposal.mk0 tsA).ts)) :=
  ⟨by decide, by decide,
    c5_comparison_dates_exact "X" "Y" opsC5 evtFin 0 (Proposal.mk0 tsA)
      (by decide) (by decide)⟩
